import Mathlib

/-!
# Verification of the bw-locale-generator repository

Shallow embedding of the repository's pure logic and proofs about it.

* `localize_npc_names/src/utils.rs`: the locale-file merge (`replace`),
  the read-only pruning scan (`discard_existing`) and the commit sequence
  of `write_to_dir`.
* `localize_npc_names/src/lib.rs`: work-set construction
  (`construct_language_data`) and translation classification
  (`process_languages`).
* `generate_toml_from_one/src/main.rs`: the script parser (`parse`) and
  the correlation join.

Modelling conventions:

* Text is modelled as a list of segments `(content, terminator)`.
  `content` is one line as produced by Rust's `str::lines` /
  `BufRead::read_line` (without its terminator), `terminator` is the
  terminator string (`"\n"`, `"\r\n"`, or `""` for a final unterminated
  line).  The byte-offset bookkeeping of `replace` (`scratch`,
  `copy_from`) always flushes at line boundaries, so it is embedded as
  per-line emission: an unchanged line is emitted verbatim with its
  terminator, a rewritten line keeps its original terminator (the code
  sets `copy_from = offset + line.len()`, leaving the terminator to the
  next flush), and inserted lines use `LINE_ENDING`.  The build of
  interest here is the non-Windows one, so `LINE_ENDING = "\n"`.
* `Cow::Borrowed` (the "nothing changed, perform no write" result,
  i.e. `scratch` stayed empty) is modelled by `MergeOut.borrowed`.
* The `onig` regex `\s*(--)?\s*L\.(\w*)\s*=\s*"(.*?)(?<!\\)"(.*)` is
  embedded as the executable matcher `parseAssignment`, implementing
  leftmost search with the pattern's greedy/lazy semantics and the
  negative look-behind on the closing quote; `\w` is modelled as ASCII
  word characters and `\s` as ASCII whitespace.
* `IndexMap` is modelled as an association list with distinct keys:
  `insertA` updates the value in place when the key exists and appends
  otherwise, `shiftRemoveA` removes the entry preserving the order of
  the rest, and iteration order is list order.
* In `discard_existing` the lines handed to the regex still carry their
  terminator; since the terminator can only affect capture group 4
  (never groups 1–2, the only ones read there) the scan is embedded on
  terminator-free contents.
* File-system effects of `write_to_dir` are embedded as a trace of
  primitive operations on an abstract two-file state (target file and
  temporary file), with `File::create` an atomic create/truncate, each
  `write_all` an atomic append, `fs::rename` atomic, and `fs::copy`
  split into its truncating open followed by the data write.
-/

namespace BwLoc

/-! ## Character and string primitives -/

/-- ASCII whitespace, the characters trimmed by the Rust code's inputs. -/
def isWs (c : Char) : Bool := c = ' ' || c = '\t' || c = '\n' || c = '\r'

/-- Regex `\w`: ASCII word character. -/
def isWordChar (c : Char) : Bool := c.isAlpha || c.isDigit || c = '_'

def trimLeftL (l : List Char) : List Char := l.dropWhile isWs

def trimRightL (l : List Char) : List Char := (l.reverse.dropWhile isWs).reverse

def trimL (l : List Char) : List Char := trimRightL (trimLeftL l)

/-- Model of Rust `str::trim`. -/
def trimS (s : String) : String := ⟨trimL s.data⟩

/-- `pat.isPrefixOf l` at some position of `l`: model of Rust `str::contains`. -/
def isSubL (pat : List Char) : List Char → Bool
  | [] => pat.isPrefixOf []
  | c :: rest => pat.isPrefixOf (c :: rest) || isSubL pat rest

/-- Model of Rust `str::contains` (substring search). -/
def containsSub (s pat : String) : Bool := isSubL pat.data s.data

/-- Model of Rust `str::starts_with`. -/
def startsWithS (s pat : String) : Bool := pat.data.isPrefixOf s.data

/-! ## Association lists: model of `indexmap::IndexMap` -/

def lookupA {α : Type} (k : String) : List (String × α) → Option α
  | [] => none
  | (k', v) :: rest => if k' = k then some v else lookupA k rest

/-- `IndexMap::insert`: replace the value in place when the key exists,
append otherwise. -/
def insertA {α : Type} (k : String) (v : α) (m : List (String × α)) :
    List (String × α) :=
  if m.any (fun p => p.1 = k) then
    m.map (fun p => if p.1 = k then (k, v) else p)
  else m ++ [(k, v)]

/-- `IndexMap::shift_remove`: drop the entry, keeping the order of the rest. -/
def shiftRemoveA {α : Type} (k : String) (m : List (String × α)) :
    List (String × α) :=
  m.filter (fun p => p.1 ≠ k)

/-! ## The locale-assignment regex

`LOCALE_ASSIGNMENT_REGEX` in `utils.rs`:
`\s*(--)?\s*L\.(\w*)\s*=\s*"(.*?)(?<!\\)"(.*)` (onig, unanchored search).
-/

/-- Captures of `LOCALE_ASSIGNMENT_REGEX`: group 1 presence, group 2 (name),
group 3 (quoted value), group 4 (trailing content after the closing quote). -/
structure Caps where
  isComment : Bool
  name : String
  value : String
  trailing : String
deriving DecidableEq, Repr

/-- Lazy search for the closing quote `(.*?)(?<!\\)"`: the first `"` not
preceded by a backslash closes the value; `.` does not match a newline. -/
def findClose (prev : Char) : List Char → Option (List Char × List Char)
  | [] => none
  | c :: rest =>
    if c = '\n' then none
    else if c = '"' && prev ≠ '\\' then some ([], rest)
    else match findClose c rest with
      | some (content, after) => some (c :: content, after)
      | none => none

/-- The part of the pattern after the literal `L.`:
`(\w*)\s*=\s*"(.*?)(?<!\\)"(.*)`. -/
def matchAfterDot (l : List Char) : Option (String × String × String) :=
  let name := l.takeWhile isWordChar
  match (l.dropWhile isWordChar).dropWhile isWs with
  | '=' :: l2 =>
    match l2.dropWhile isWs with
    | '"' :: l3 =>
      match findClose '"' l3 with
      | some (content, after) =>
        some (⟨name⟩, ⟨content⟩, ⟨after.takeWhile (· ≠ '\n')⟩)
      | none => none
    | _ => none
  | _ => none

/-- Attempt the pattern at one start position: `\s*(--)?\s*L\.` then the rest.
If the greedy `--` alternative fails after being taken, the empty alternative
fails too at this position (the next character is `-`, not `L`). -/
def tryMatchAt (l : List Char) : Option Caps :=
  match l.dropWhile isWs with
  | 'L' :: '.' :: rest =>
    (matchAfterDot rest).map (fun c => ⟨false, c.1, c.2.1, c.2.2⟩)
  | '-' :: '-' :: l2 =>
    match l2.dropWhile isWs with
    | 'L' :: '.' :: rest =>
      (matchAfterDot rest).map (fun c => ⟨true, c.1, c.2.1, c.2.2⟩)
    | _ => none
  | _ => none

/-- Leftmost match: try every start position, left to right. -/
def findMatchL : List Char → Option Caps
  | [] => none
  | c :: rest =>
    match tryMatchAt (c :: rest) with
    | some caps => some caps
    | none => findMatchL rest

/-- `LOCALE_ASSIGNMENT_REGEX.captures(line)`. -/
def parseAssignment (s : String) : Option Caps := findMatchL s.data

/-! ## The merge (`replace` in `utils.rs`) -/

/-- One line of text: `(content, terminator)`. -/
abbrev Seg := String × String

/-- `LINE_ENDING` for the non-Windows build. -/
def lineEnding : String := "\n"

/-- The scan states of `replace` / `discard_existing` (`enum State`). -/
inductive MState
  | initial
  | foundLocale
  | insideIf
  | done
deriving DecidableEq, Repr

/-- The values map handed to the merge: name ↦ (translation, is_valid). -/
abbrev VMap := List (String × (String × Bool))

/-- `format!("{}L.{} = \"{}\"", if is_valid { "\t" } else { "\t-- " }, name, translation)` -/
def mkValueLine (n t : String) (ok : Bool) : String :=
  (if ok then "\t" else "\t-- ") ++ "L." ++ n ++ " = \"" ++ t ++ "\""

/-- `format!("\tL.{name} = \"{translation}\"{leftover}")` -/
def mkRewrittenLine (n t leftover : String) : String :=
  "\tL." ++ n ++ " = \"" ++ t ++ "\"" ++ leftover

/-- The lines inserted before `end` / appended in the fallback block. -/
def valueSegs (vals : VMap) : List Seg :=
  vals.map (fun p => (mkValueLine p.1 p.2.1 p.2.2, lineEnding))

/-- Result of the scan loop of `replace`: emitted segments, the values not
yet consumed, the final state, and whether `scratch` is non-empty (some
line was rewritten or new entries were inserted). -/
structure LoopOut where
  out : List Seg
  vals : VMap
  state : MState
  changed : Bool
deriving DecidableEq, Repr

/-- Emit one segment in front of a loop result. -/
def consOut (s : Seg) (r : LoopOut) : LoopOut :=
  ⟨s :: r.out, r.vals, r.state, r.changed⟩

/-- Record that `scratch` became non-empty (a line was flushed rewritten). -/
def setChanged (r : LoopOut) : LoopOut :=
  { r with changed := true }

/-- The `for line in src.lines()` loop of `replace`.  After the insertion at
`end` the code breaks and later copies the remaining bytes verbatim, which
is modelled by emitting the remaining segments unchanged; `State::Done`
never iterates.  (The source trims the `FoundLocale` line twice; `trim` is
idempotent, so it is applied once here.) -/
def replaceLoop (header : String) : MState → VMap → List Seg → LoopOut
  | .done, vals, segs => ⟨segs, vals, .done, false⟩
  | st, vals, [] => ⟨[], vals, st, false⟩
  | .initial, vals, (c, t) :: rest =>
    consOut (c, t) (replaceLoop header
      (if containsSub (trimS c) header then .foundLocale else .initial) vals rest)
  | .foundLocale, vals, (c, t) :: rest =>
    consOut (c, t) (replaceLoop header
      (if trimS c = "if L then" then .insideIf
       else if startsWithS (trimS c) "L =" && trimS c ≠ header then .initial
       else .foundLocale) vals rest)
  | .insideIf, vals, (c, t) :: rest =>
    if trimS c = "end" then
      ⟨valueSegs vals ++ (c, t) :: rest, vals, .done, !vals.isEmpty⟩
    else match parseAssignment c with
      | some caps =>
        match lookupA caps.name vals with
        | some (tr, ok) =>
          if ok && (caps.isComment || caps.value ≠ tr) then
            setChanged (consOut (mkRewrittenLine caps.name tr caps.trailing, t)
              (replaceLoop header .insideIf (shiftRemoveA caps.name vals) rest))
          else
            consOut (c, t)
              (replaceLoop header .insideIf (shiftRemoveA caps.name vals) rest)
        | none => consOut (c, t) (replaceLoop header .insideIf vals rest)
      | none => consOut (c, t) (replaceLoop header .insideIf vals rest)

/-- `src.trim().is_empty()` at the segment level (terminators of well-formed
text are whitespace). -/
def isBlank (segs : List Seg) : Bool := segs.all (fun s => trimS s.1 = "")

/-- The brand-new block written when the existing text is blank:
`local <header>` / `if not L then return end` / `if L then` / values / `end`. -/
def caseASegs (header : String) (vals : VMap) : List Seg :=
  ("local " ++ header, lineEnding) :: ("if not L then return end", lineEnding) ::
    ("if L then", lineEnding) :: (valueSegs vals ++ [("end", lineEnding)])

/-- The block appended after non-blank content whose header was not found:
`<header>` / `if L then` / values / `end` (no `local` prefix, no guard line —
those are emitted only in the blank case). -/
def appendedBlockSegs (header : String) (vals : VMap) : List Seg :=
  (header, lineEnding) :: ("if L then", lineEnding) ::
    (valueSegs vals ++ [("end", lineEnding)])

/-- `scratch.extend_from_slice(bytes); scratch.extend_from_slice(LINE_ENDING)`
after copying the whole source: at the segment level, a final unterminated
line receives the terminator, otherwise an empty line is appended. -/
def appendNL : List Seg → List Seg
  | [] => [("", lineEnding)]
  | [(c, t)] => if t = "" then [(c, lineEnding)] else [(c, t), ("", lineEnding)]
  | s :: s' :: rest => s :: appendNL (s' :: rest)

/-- `Cow::Borrowed` (no change, no write) versus `Cow::Owned` (new text). -/
inductive MergeOut
  | borrowed
  | owned (segs : List Seg)
deriving DecidableEq, Repr

/-- `replace(src, header, values)` of `utils.rs` (the `String::from_utf8`
failure cannot occur for text, so the surrounding `Option` is dropped). -/
def replaceM (header : String) (vals : VMap) (segs : List Seg) : MergeOut :=
  let r := replaceLoop header .initial vals segs
  match r.state with
  | .done => if r.changed then .owned r.out else .borrowed
  | _ =>
    if isBlank segs then .owned (caseASegs header r.vals)
    else .owned (appendNL r.out ++ appendedBlockSegs header r.vals)

/-- The text produced by a merge (a borrowed result is the source itself). -/
def mergeSegs (header : String) (vals : VMap) (segs : List Seg) : List Seg :=
  match replaceM header vals segs with
  | .borrowed => segs
  | .owned o => o

/-- Concatenate segments back into the file text. -/
def render (segs : List Seg) : String :=
  segs.foldl (fun acc s => acc ++ s.1 ++ s.2) ""

/-! ## The read-only pruning scan (`discard_existing` in `utils.rs`) -/

/-- `discard_existing(file, header, map)`: scan the existing file with the
same state machine and `shift_remove` from the work set every name whose
line matched without the comment group; stop at the block's `end`. -/
def discardExisting (header : String) :
    MState → List String → List (String × Int) → List (String × Int)
  | _, [], m => m
  | .initial, c :: rest, m =>
    discardExisting header
      (if containsSub (trimS c) header then .foundLocale else .initial) rest m
  | .foundLocale, c :: rest, m =>
    discardExisting header
      (if trimS c = "if L then" then .insideIf
       else if startsWithS (trimS c) "L =" && trimS c ≠ header then .initial
       else .foundLocale) rest m
  | .insideIf, c :: rest, m =>
    if trimS c = "end" then m
    else match parseAssignment c with
      | some caps =>
        discardExisting header .insideIf rest
          (if caps.isComment then m else shiftRemoveA caps.name m)
      | none => discardExisting header .insideIf rest m
  | .done, _ :: rest, m => discardExisting header .done rest m

/-- Modelled from the spec: the variable names that "appear as a
non-commented assignment inside the block matching the header" — the names
the read-only scan encounters uncommented, in scan order.  This is the
spec-side characterization against which `discardExisting` is compared. -/
def scanNames (header : String) : MState → List String → List String
  | _, [] => []
  | .initial, c :: rest =>
    scanNames header
      (if containsSub (trimS c) header then .foundLocale else .initial) rest
  | .foundLocale, c :: rest =>
    scanNames header
      (if trimS c = "if L then" then .insideIf
       else if startsWithS (trimS c) "L =" && trimS c ≠ header then .initial
       else .foundLocale) rest
  | .insideIf, c :: rest =>
    if trimS c = "end" then []
    else match parseAssignment c with
      | some caps =>
        if caps.isComment then scanNames header .insideIf rest
        else caps.name :: scanNames header .insideIf rest
      | none => scanNames header .insideIf rest
  | .done, _ :: rest => scanNames header .done rest

/-! ## Work-set construction (`construct_language_data` in `lib.rs`) -/

/-- One language's data (`struct LanguageData`). -/
structure LanguageData where
  subdomain : String
  code : String
  header : String
  idsMap : List (String × Int)
deriving DecidableEq, Repr

/-- `construct_language_data(initial_data, ids_map, output_dir)`.
`files` is the readable per-language output files (`code ↦ lines`),
`none` when `force_all` made the caller pass no output directory. -/
def constructLanguageData (initialData : List (String × String × String))
    (idsMap : List (String × Int))
    (files : Option (String → Option (List String))) : List LanguageData :=
  initialData.filterMap (fun lang =>
    let m := match files with
      | none => idsMap
      | some f =>
        match f lang.2.1 with
        | some fileLines => discardExisting lang.2.2 .initial fileLines idsMap
        | none => idsMap
    if m.isEmpty then none
    else some ⟨lang.1, lang.2.1, lang.2.2, m⟩)

/-! ## Translation classification (`process_languages` in `lib.rs`) -/

/-- The `match translation.as_bytes() { [b'[', rest @ .., b']'] => ... }`
classification: a text wrapped in literal brackets is stored with the
brackets stripped and `is_valid = false`, anything else unchanged and
valid.  (`[` and `]` are ASCII, so the byte-level pattern coincides with
the character-level one.) -/
def classifyTranslation (t : String) : String × Bool :=
  if 2 ≤ t.data.length ∧ t.data.head? = some '[' ∧ t.data.getLast? = some ']' then
    (⟨(t.data.drop 1).dropLast⟩, false)
  else (t, true)

/-! ## The script parser (`parse` in `generate_toml_from_one/src/main.rs`) -/

/-- `ID_REGEX`: `^\s*(\d+),?\s*--\s*(.+?)\n?$` applied to one line, with the
key already trimmed as the caller does.  The lazy group together with the
backtracking of `\s*` makes the captured comment's trim equal the trim of
everything after `--`, and the match requires at least one character there. -/
def parseIdLine (s : String) : Option (String × Int) :=
  let l := s.data.dropWhile isWs
  let digits := l.takeWhile Char.isDigit
  if digits.isEmpty then none
  else
    let l1 := l.dropWhile Char.isDigit
    let l2 := match l1 with
      | ',' :: r => r
      | _ => l1
    match l2.dropWhile isWs with
    | '-' :: '-' :: rest =>
      if rest.isEmpty then none
      else some (⟨trimL rest⟩,
        (digits.foldl (fun a c => a * 10 + (c.toNat - '0'.toNat)) 0 : Nat))
    | _ => none

/-- Greedy `(.+)` followed by `"`: split at the last `"` of the line,
requiring a non-empty quoted text. -/
def lastQuoteSplit (l : List Char) : Option (List Char) :=
  match l.reverse.dropWhile (· ≠ '"') with
  | '"' :: restRev => if restRev.isEmpty then none else some restRev.reverse
  | _ => none

/-- `VAR_REGEX`: `^\s*L\.(\w+)\s*=\s*"(.+)"`, anchored at the line start and
returning `(text, variable_name)` — the map key is the quoted text. -/
def parseVarLine (s : String) : Option (String × String) :=
  match s.data.dropWhile isWs with
  | 'L' :: '.' :: rest =>
    let name := rest.takeWhile isWordChar
    if name.isEmpty then none
    else match (rest.dropWhile isWordChar).dropWhile isWs with
      | '=' :: r2 =>
        match r2.dropWhile isWs with
        | '"' :: r3 =>
          match lastQuoteSplit r3 with
          | some content => some (⟨content⟩, ⟨name⟩)
          | none => none
        | _ => none
      | _ => none
  | _ => none

/-- Strip a literal token, or fail. -/
def stripTok (tok : List Char) (l : List Char) : Option (List Char) :=
  if tok.isPrefixOf l then some (l.drop tok.length) else none

/-- `MODULE_DECL_REGEX`:
`^\s*local\s*mod(?:,\s*CL)?\s*=\s*BigWigs:NewBoss\("(.*?)"`.
When the optional `,\s*CL` group cannot be completed the engine falls back
to not taking it (in which case the following `=` fails on the `,` anyway). -/
def parseModuleDecl (s : String) : Option String :=
  match stripTok "local".data (s.data.dropWhile isWs) with
  | none => none
  | some l1 =>
    match stripTok "mod".data (l1.dropWhile isWs) with
    | none => none
    | some l2 =>
      let l3 := match l2 with
        | ',' :: r =>
          match stripTok "CL".data (r.dropWhile isWs) with
          | some r2 => r2
          | none => l2
        | _ => l2
      match stripTok "=".data (l3.dropWhile isWs) with
      | none => none
      | some l4 =>
        match stripTok "BigWigs:NewBoss(\"".data (l4.dropWhile isWs) with
        | none => none
        | some l5 =>
          if l5.any (· = '"') ∧ ¬ '\n' ∈ l5.takeWhile (· ≠ '"') then
            some ⟨l5.takeWhile (· ≠ '"')⟩
          else none

/-- The states of `parse`'s state machine (`enum ParseState`). -/
inductive PState
  | parsingIds
  | parsingVars
  | neither
deriving DecidableEq, Repr

/-- The raw tables built by the scan loop of `parse`. -/
structure ScriptTables where
  ids : List (String × Int)
  vars : List (String × String)
  moduleName : Option String
deriving DecidableEq, Repr

/-- The `while file.read_line ...` loop of `parse`: `blocks` is
`parsed_blocks`, and finishing a block when it is already `1` breaks. -/
def parseLoop : PState → Nat → List String → ScriptTables → ScriptTables
  | _, _, [], acc => acc
  | .parsingIds, blocks, line :: rest, acc =>
    match parseIdLine line with
    | some kv => parseLoop .parsingIds blocks rest
        { acc with ids := insertA kv.1 kv.2 acc.ids }
    | none =>
      if line.data.any (· = ')') then
        if blocks = 1 then acc else parseLoop .neither (blocks + 1) rest acc
      else parseLoop .parsingIds blocks rest acc
  | .parsingVars, blocks, line :: rest, acc =>
    match parseVarLine line with
    | some kv => parseLoop .parsingVars blocks rest
        { acc with vars := insertA kv.1 kv.2 acc.vars }
    | none =>
      if trimS line = "end" then
        if blocks = 1 then acc else parseLoop .neither (blocks + 1) rest acc
      else parseLoop .parsingVars blocks rest acc
  | .neither, blocks, line :: rest, acc =>
    if startsWithS line "mod:RegisterEnableMob(" then
      parseLoop .parsingIds blocks rest acc
    else if startsWithS line "if L then" then
      parseLoop .parsingVars blocks rest acc
    else match parseModuleDecl line with
      | some m => parseLoop .neither blocks rest { acc with moduleName := some m }
      | none => parseLoop .neither blocks rest acc

/-- `struct ParseResult`. -/
structure ParseResult where
  moduleName : Option String
  npcs : List (String × Int)
  missingVars : List (String × String)
  missingIds : List (Int × String)
deriving DecidableEq, Repr

/-- The correlation join: for each variable `(text, name)`, `shift_remove`
the identifier keyed by `text`; a hit inserts `name ↦ id`, a miss is pushed
onto `missing_vars`. -/
def correlateAux : List (String × String) → List (String × Int) →
    List (String × Int) → List (String × String) →
    List (String × Int) × List (String × String) × List (String × Int)
  | [], idsLeft, entries, mv => (entries, mv, idsLeft)
  | (text, vname) :: rest, idsLeft, entries, mv =>
    match lookupA text idsLeft with
    | some id =>
      correlateAux rest (shiftRemoveA text idsLeft) (insertA vname id entries) mv
    | none => correlateAux rest idsLeft entries (mv ++ [(vname, text)])

/-- `parse(file)` on the file's lines (terminators stripped; the regexes'
`\n?$` handling makes the captures used here terminator-insensitive). -/
def parseScript (fileLines : List String) : ParseResult :=
  let t := parseLoop .neither 0 fileLines ⟨[], [], none⟩
  let r := correlateAux t.vars t.ids [] []
  ⟨t.moduleName, r.1, r.2.1, r.2.2.map (fun p => (p.2, p.1))⟩

/-! ## The commit sequence (`write_to_dir` in `utils.rs`) -/

/-- Abstract file-system state: contents of the target file and of the
temporary file (`none` = the file does not exist). -/
structure Fs where
  target : Option String
  tmp : Option String
deriving DecidableEq, Repr

/-- Primitive file operations performed by `write_to_dir`.  `copyTruncate`
and `copyWrite` are the two phases of `fs::copy` (truncating open of the
destination, then the data transfer). -/
inductive FsOp
  | createTmp
  | writeTmpAll (s : String)
  | syncTmp
  | renameTmpToTarget
  | copyTruncate
  | copyWrite
  | removeTmp
  | createTarget
  | writeTargetAll (s : String)
  | syncTarget
deriving DecidableEq, Repr

def applyOp (st : Fs) : FsOp → Fs
  | .createTmp => { st with tmp := some "" }
  | .writeTmpAll s => { st with tmp := st.tmp.map (· ++ s) }
  | .syncTmp => st
  | .renameTmpToTarget => { target := st.tmp, tmp := none }
  | .copyTruncate => { st with target := some "" }
  | .copyWrite => { st with target := st.tmp }
  | .removeTmp => { st with tmp := none }
  | .createTarget => { st with target := some "" }
  | .writeTargetAll s => { st with target := st.target.map (· ++ s) }
  | .syncTarget => st

def applyOps (st : Fs) (ops : List FsOp) : Fs := ops.foldl applyOp st

/-- The operation sequence of the existing-file branch once `replace`
returned an owned text: temp file write, sync, then rename — or, when the
rename fails across file systems, copy then delete of the temp file. -/
def existingTrace (content : String) (crossFs : Bool) : List FsOp :=
  [.createTmp, .writeTmpAll content, .syncTmp] ++
    (if crossFs then [.copyTruncate, .copyWrite, .removeTmp]
     else [.renameTmpToTarget])

/-- The operation sequence of the `ErrorKind::NotFound` branch: the target
file is created and written directly, piece by piece. -/
def creationTrace (header : String) (vals : VMap) : List FsOp :=
  [.createTarget, .writeTargetAll "local ", .writeTargetAll header,
    .writeTargetAll lineEnding, .writeTargetAll "if not L then return end",
    .writeTargetAll lineEnding, .writeTargetAll "if L then",
    .writeTargetAll lineEnding] ++
  (vals.flatMap (fun p =>
    [.writeTargetAll (mkValueLine p.1 p.2.1 p.2.2), .writeTargetAll lineEnding])) ++
  [.writeTargetAll "end", .writeTargetAll lineEnding, .syncTarget]

/-- The file operations of `write_to_dir`: nothing on a borrowed result,
the temp-file commit on an owned result, the direct write when the target
does not exist. -/
def writeToDirOps (existing : Option (List Seg)) (crossFs : Bool)
    (header : String) (vals : VMap) : List FsOp :=
  match existing with
  | some segs =>
    match replaceM header vals segs with
    | .borrowed => []
    | .owned o => existingTrace (render o) crossFs
  | none => creationTrace header vals

/-! ## C6: placeholder classification -/

/-- **C6.** For every fetched translation text (after suffix stripping and
quote escaping): when it is wrapped in literal `[` `]` brackets the stored
translation is the text with the brackets stripped and `is_valid = false`,
and the line written for it is the commented `\t-- L.<name> = "<text>"`;
otherwise it is stored unchanged with `is_valid = true` and written
uncommented. -/
theorem c6_placeholder_classification (t n : String) :
    (∀ mid : List Char, t.data = '[' :: (mid ++ [']']) →
      classifyTranslation t = (⟨mid⟩, false) ∧
      mkValueLine n ⟨mid⟩ false = "\t-- L." ++ n ++ " = \"" ++ (⟨mid⟩ : String) ++ "\"") ∧
    ((¬ ∃ mid : List Char, t.data = '[' :: (mid ++ [']'])) →
      classifyTranslation t = (t, true) ∧
      mkValueLine n t true = "\tL." ++ n ++ " = \"" ++ t ++ "\"") := by
  have hpre : ∀ s : String, mkValueLine n s false =
      "\t-- L." ++ n ++ " = \"" ++ s ++ "\"" := by
    intro s
    show ("\t-- " : String) ++ "L." ++ n ++ " = \"" ++ s ++ "\"" =
      "\t-- L." ++ n ++ " = \"" ++ s ++ "\""
    have : ("\t-- " : String) ++ "L." = "\t-- L." := by decide
    rw [this]
  have hpre' : mkValueLine n t true = "\tL." ++ n ++ " = \"" ++ t ++ "\"" := by
    show ("\t" : String) ++ "L." ++ n ++ " = \"" ++ t ++ "\"" =
      "\tL." ++ n ++ " = \"" ++ t ++ "\""
    have : ("\t" : String) ++ "L." = "\tL." := by decide
    rw [this]
  constructor
  · intro mid hmid
    refine ⟨?_, hpre ⟨mid⟩⟩
    have hcond : 2 ≤ t.data.length ∧ t.data.head? = some '[' ∧
        t.data.getLast? = some ']' := by
      rw [hmid]
      refine ⟨by simp, by simp, ?_⟩
      rw [List.getLast?_cons, List.getLast?_append]
      simp
    rw [classifyTranslation, if_pos hcond]
    have : (t.data.drop 1).dropLast = mid := by
      rw [hmid]
      simp
    rw [this]
  · intro hne
    have hcond : ¬(2 ≤ t.data.length ∧ t.data.head? = some '[' ∧
        t.data.getLast? = some ']') := by
      rintro ⟨hlen, hh, hl⟩
      apply hne
      obtain ⟨c, tl, hct⟩ : ∃ c tl, t.data = c :: tl := by
        cases h : t.data with
        | nil => rw [h] at hlen; simp at hlen
        | cons a b => exact ⟨a, b, rfl⟩
      rw [hct] at hh hl hlen
      simp at hh
      have htl : tl ≠ [] := by
        intro h0
        rw [h0] at hlen
        simp at hlen
      refine ⟨tl.dropLast, ?_⟩
      rw [hct, hh]
      congr 1
      rw [List.getLast?_cons, List.getLast?_eq_getLast _ htl] at hl
      simp at hl
      conv_lhs => rw [← List.dropLast_append_getLast htl]
      rw [hl]
    rw [classifyTranslation, if_neg hcond]
    exact ⟨rfl, hpre'⟩

/-- Concrete instance of C6 at the spec's own scenario. -/
theorem c6_placeholder_classification_witness :
    classifyTranslation "[Unnamed]" = ("Unnamed", false) ∧
    mkValueLine "bob" "Unnamed" false = "\t-- L.bob = \"Unnamed\"" := by
  have h := (c6_placeholder_classification "[Unnamed]" "bob").1 "Unnamed".data rfl
  exact h

/-! ## C8: duplicate handling in extraction -/

/-- A script whose identifier block has two lines with the same trimmed
comment. -/
def scriptDupIds : List String :=
  ["mod:RegisterEnableMob(", "1, -- Bob", "2, -- Bob", ")",
   "if L then", "L.a = \"Bob\"", "end"]

/-- A script whose variable block has two lines with the same quoted text
(first line names `a`, second names `b`). -/
def scriptDupVars : List String :=
  ["mod:RegisterEnableMob(", "1, -- Bob", ")",
   "if L then", "L.a = \"Bob\"", "L.b = \"Bob\"", "end"]

/-- **C8, counterexample.** The claim says that when two variable lines
share the same quoted text "the first match wins"; on this script the
first such line names `a`, yet the parse result carries `b` — the later
line's variable name. -/
theorem c8_counterexample :
    (parseScript scriptDupVars).npcs = [("b", 1)] ∧
    (parseScript scriptDupVars).npcs ≠ [("a", 1)] := by
  constructor
  · decide
  · decide

/-- **C8, amended.** Duplicate identifier comments: the last line's id wins.
Duplicate variable texts: the map insert also lets the later line win — it
overwrites the earlier line's variable name in place (one entry per text,
carrying the last name; a single join attempt, no `missing_vars` entry for
the earlier line).  Both sides resolve duplicates by last write, at map
insertion; the consuming join never sees more than one entry per key. -/
theorem c8_duplicate_handling :
    (parseLoop .neither 0 scriptDupIds ⟨[], [], none⟩).ids = [("Bob", 2)] ∧
    parseScript scriptDupIds =
      ⟨none, [("a", 2)], [], []⟩ ∧
    (parseLoop .neither 0 scriptDupVars ⟨[], [], none⟩).vars = [("Bob", "b")] ∧
    parseScript scriptDupVars = ⟨none, [("b", 1)], [], []⟩ := by
  refine ⟨by decide, by decide, by decide, by decide⟩

/-! ## C3: the correlation join counts -/

/-- A script whose two variable lines have distinct quoted texts but the
same variable name. -/
def scriptDupNames : List String :=
  ["mod:RegisterEnableMob(", "1, -- Bob", "2, -- Robert", ")",
   "if L then", "L.bob = \"Bob\"", "L.bob = \"Robert\"", "end"]

/-- **C3, counterexample.** The claim's count
`|entries| + |missing_vars| = |RawVariable|` fails when two variables share
a name: both texts hit an identifier, but the second insert into the
entries map overwrites the first, so one hit vanishes from the count.  Here
`|RawVariable| = 2` (two distinct texts) while `|entries| = 1` and
`missing_vars` is empty; the identifier-side count fails likewise. -/
theorem c3_counterexample :
    (parseLoop .neither 0 scriptDupNames ⟨[], [], none⟩).vars.length = 2 ∧
    (parseLoop .neither 0 scriptDupNames ⟨[], [], none⟩).ids.length = 2 ∧
    (parseScript scriptDupNames).npcs.length +
      (parseScript scriptDupNames).missingVars.length ≠ 2 ∧
    (parseScript scriptDupNames).npcs.length +
      (parseScript scriptDupNames).missingIds.length ≠ 2 := by
  refine ⟨by decide, by decide, by decide, by decide⟩

/-! ### Association-list lemmas -/

theorem lookupA_mem {α : Type} {k : String} {v : α} :
    ∀ {m : List (String × α)}, lookupA k m = some v → (k, v) ∈ m := by
  intro m
  induction m with
  | nil => intro h; simp [lookupA] at h
  | cons p rest ih =>
    intro h
    obtain ⟨k', v'⟩ := p
    rw [lookupA] at h
    by_cases hk : k' = k
    · rw [if_pos hk] at h
      cases h
      cases hk
      exact List.mem_cons_self _ _
    · rw [if_neg hk] at h
      exact List.mem_cons_of_mem _ (ih h)

theorem anyKey_iff {α : Type} {k : String} {m : List (String × α)} :
    m.any (fun p => p.1 = k) = true ↔ k ∈ m.map Prod.fst := by
  rw [List.any_eq_true]
  constructor
  · rintro ⟨p, hp, he⟩
    simp only [decide_eq_true_eq] at he
    exact he ▸ List.mem_map_of_mem Prod.fst hp
  · intro h
    obtain ⟨p, hp, he⟩ := List.mem_map.mp h
    exact ⟨p, hp, by simp [he]⟩

theorem insertA_of_not_mem {α : Type} {k : String} (v : α) {m : List (String × α)}
    (h : k ∉ m.map Prod.fst) : insertA k v m = m ++ [(k, v)] := by
  rw [insertA, if_neg]
  rw [anyKey_iff]
  exact h

theorem insertA_keys_of_not_mem {α : Type} {k : String} (v : α)
    {m : List (String × α)} (h : k ∉ m.map Prod.fst) :
    (insertA k v m).map Prod.fst = m.map Prod.fst ++ [k] := by
  rw [insertA_of_not_mem v h]
  simp

theorem shiftRemoveA_keys_sublist {α : Type} (k : String) (m : List (String × α)) :
    List.Sublist ((shiftRemoveA k m).map Prod.fst) (m.map Prod.fst) :=
  (List.filter_sublist m).map Prod.fst

theorem shiftRemoveA_sublist {α : Type} (k : String) (m : List (String × α)) :
    List.Sublist (shiftRemoveA k m) m :=
  List.filter_sublist m

theorem shiftRemoveA_of_not_mem {α : Type} {k : String} {m : List (String × α)}
    (h : k ∉ m.map Prod.fst) : shiftRemoveA k m = m := by
  rw [shiftRemoveA, List.filter_eq_self]
  intro p hp
  have hne : p.1 ≠ k := fun he => h (he ▸ List.mem_map_of_mem Prod.fst hp)
  simp [hne]

theorem shiftRemoveA_length {α : Type} {k : String} {v : α} :
    ∀ {m : List (String × α)}, (m.map Prod.fst).Nodup →
      lookupA k m = some v → m.length = (shiftRemoveA k m).length + 1 := by
  intro m
  induction m with
  | nil => intro _ h; simp [lookupA] at h
  | cons p rest ih =>
    intro hnd h
    obtain ⟨k', v'⟩ := p
    simp only [List.map_cons, List.nodup_cons] at hnd
    rw [lookupA] at h
    by_cases hk : k' = k
    · subst hk
      have hstep : shiftRemoveA k' ((k', v') :: rest) = shiftRemoveA k' rest := by
        simp [shiftRemoveA, List.filter_cons]
      rw [hstep, shiftRemoveA_of_not_mem hnd.1]
      simp
    · rw [if_neg hk] at h
      have hstep : shiftRemoveA k ((k', v') :: rest) =
          (k', v') :: shiftRemoveA k rest := by
        simp [shiftRemoveA, List.filter_cons, hk]
      rw [hstep]
      simp only [List.length_cons]
      rw [ih hnd.2 h]

theorem insertA_keys_nodup {α : Type} (k : String) (v : α)
    {m : List (String × α)} (h : (m.map Prod.fst).Nodup) :
    ((insertA k v m).map Prod.fst).Nodup := by
  by_cases hk : k ∈ m.map Prod.fst
  · rw [insertA, if_pos (anyKey_iff.mpr hk)]
    have : (m.map (fun p => if p.1 = k then (k, v) else p)).map Prod.fst =
        m.map Prod.fst := by
      rw [List.map_map]
      apply List.map_congr_left
      intro p _
      by_cases hp : p.1 = k
      · simp [hp]
      · simp [hp]
    rw [this]
    exact h
  · rw [insertA_keys_of_not_mem v hk]
    simp only [List.nodup_append, List.nodup_cons]
    exact ⟨h, by simp, by simpa using fun hx => hk hx⟩

/-- Case analysis of one `parse` loop step preserves distinctness of the
keys of both tables. -/
theorem parseLoop_nodup :
    ∀ (fileLines : List String) (st : PState) (blocks : Nat)
      (acc : ScriptTables),
      (acc.ids.map Prod.fst).Nodup → (acc.vars.map Prod.fst).Nodup →
      ((parseLoop st blocks fileLines acc).ids.map Prod.fst).Nodup ∧
      ((parseLoop st blocks fileLines acc).vars.map Prod.fst).Nodup := by
  intro fileLines
  induction fileLines with
  | nil => intro st blocks acc h1 h2; cases st <;> exact ⟨h1, h2⟩
  | cons line rest ih =>
    intro st blocks acc h1 h2
    cases st with
    | parsingIds =>
      rw [parseLoop]
      cases hp : parseIdLine line with
      | some kv => exact ih _ _ _ (insertA_keys_nodup _ _ h1) h2
      | none =>
        by_cases hc : line.data.any (· = ')')
        · rw [if_pos hc]
          by_cases hb : blocks = 1
          · rw [if_pos hb]; exact ⟨h1, h2⟩
          · rw [if_neg hb]; exact ih _ _ _ h1 h2
        · rw [if_neg hc]; exact ih _ _ _ h1 h2
    | parsingVars =>
      rw [parseLoop]
      cases hp : parseVarLine line with
      | some kv => exact ih _ _ _ h1 (insertA_keys_nodup _ _ h2)
      | none =>
        by_cases hc : trimS line = "end"
        · rw [if_pos hc]
          by_cases hb : blocks = 1
          · rw [if_pos hb]; exact ⟨h1, h2⟩
          · rw [if_neg hb]; exact ih _ _ _ h1 h2
        · rw [if_neg hc]; exact ih _ _ _ h1 h2
    | neither =>
      rw [parseLoop]
      by_cases hm : startsWithS line "mod:RegisterEnableMob(" = true
      · rw [if_pos hm]; exact ih _ _ _ h1 h2
      · rw [if_neg hm]
        by_cases hv : startsWithS line "if L then" = true
        · rw [if_pos hv]; exact ih _ _ _ h1 h2
        · rw [if_neg hv]
          cases parseModuleDecl line with
          | some m => exact ih _ _ _ h1 h2
          | none => exact ih _ _ _ h1 h2

/-- The correlation join's bookkeeping: provided the remaining identifiers
have distinct keys, the emitted variable names are distinct, and none of
them is already an entry key, each step either moves one variable into the
entries (consuming one identifier) or into `missing_vars`. -/
theorem correlateAux_spec :
    ∀ (vars : List (String × String)) (idsLeft : List (String × Int))
      (entries : List (String × Int)) (mv : List (String × String)),
      (idsLeft.map Prod.fst).Nodup →
      (vars.map Prod.snd).Nodup →
      (∀ n ∈ vars.map Prod.snd, n ∉ entries.map Prod.fst) →
      (correlateAux vars idsLeft entries mv).1.length +
          (correlateAux vars idsLeft entries mv).2.1.length =
        entries.length + mv.length + vars.length ∧
      (correlateAux vars idsLeft entries mv).1.length +
          (correlateAux vars idsLeft entries mv).2.2.length =
        entries.length + idsLeft.length ∧
      (∀ e ∈ (correlateAux vars idsLeft entries mv).1,
        e ∈ entries ∨ ∃ t, (t, e.1) ∈ vars ∧ (t, e.2) ∈ idsLeft) := by
  intro vars
  induction vars with
  | nil =>
    intro idsLeft entries mv _ _ _
    refine ⟨by simp [correlateAux], by simp [correlateAux], ?_⟩
    intro e he
    exact Or.inl he
  | cons p rest ih =>
    intro idsLeft entries mv hids hnames hfresh
    obtain ⟨text, vname⟩ := p
    simp only [List.map_cons, List.nodup_cons] at hnames
    have hvfresh : vname ∉ entries.map Prod.fst :=
      hfresh vname (by simp)
    rw [correlateAux]
    cases hl : lookupA text idsLeft with
    | some id =>
      have hids' : ((shiftRemoveA text idsLeft).map Prod.fst).Nodup :=
        List.Nodup.sublist (shiftRemoveA_keys_sublist _ _) hids
      have hlen : idsLeft.length = (shiftRemoveA text idsLeft).length + 1 :=
        shiftRemoveA_length hids hl
      have hkeys : (insertA vname id entries).map Prod.fst =
          entries.map Prod.fst ++ [vname] :=
        insertA_keys_of_not_mem id hvfresh
      have hfresh' : ∀ n ∈ rest.map Prod.snd,
          n ∉ (insertA vname id entries).map Prod.fst := by
        intro n hn
        rw [hkeys]
        intro hmem
        rcases List.mem_append.mp hmem with hmem | hmem
        · exact hfresh n (List.mem_cons_of_mem _ hn) hmem
        · simp only [List.mem_singleton] at hmem
          exact hnames.1 (hmem ▸ hn)
      obtain ⟨c1, c2, c3⟩ := ih (shiftRemoveA text idsLeft)
        (insertA vname id entries) mv hids' hnames.2 hfresh'
      have hinslen : (insertA vname id entries).length = entries.length + 1 := by
        rw [insertA_of_not_mem id hvfresh]
        simp
      refine ⟨?_, ?_, ?_⟩
      · rw [c1, hinslen]; simp only [List.length_cons]; omega
      · rw [c2, hinslen, hlen]; omega
      · intro e he
        rcases c3 e he with hin | ⟨t, ht1, ht2⟩
        · rw [insertA_of_not_mem id hvfresh] at hin
          rcases List.mem_append.mp hin with hin | hin
          · exact Or.inl hin
          · simp only [List.mem_singleton] at hin
            refine Or.inr ⟨text, ?_, ?_⟩
            · rw [hin]; exact List.mem_cons_self _ _
            · rw [hin]; exact lookupA_mem hl
        · exact Or.inr ⟨t, List.mem_cons_of_mem _ ht1,
            List.Sublist.mem ht2 (shiftRemoveA_sublist _ _)⟩
    | none =>
      have hfresh' : ∀ n ∈ rest.map Prod.snd, n ∉ entries.map Prod.fst :=
        fun n hn => hfresh n (List.mem_cons_of_mem _ hn)
      obtain ⟨c1, c2, c3⟩ := ih idsLeft entries (mv ++ [(vname, text)])
        hids hnames.2 hfresh'
      refine ⟨?_, c2, ?_⟩
      · rw [c1]; simp; omega
      · intro e he
        rcases c3 e he with hin | ⟨t, ht1, ht2⟩
        · exact Or.inl hin
        · exact Or.inr ⟨t, List.mem_cons_of_mem _ ht1, ht2⟩

/-- **C3, amended.** For every input script whose extracted variable table
carries pairwise-distinct variable names, correlation is a one-to-one
consuming join: `|entries| + |missing_vars| = |RawVariable|`,
`|entries| + |missing_ids| = |RawIdentifier|`, and every entry's variable
name and id each stem from one variable and one identifier sharing a text.
(Without the distinctness proviso the claim fails: see the counterexample.)
-/
theorem c3_correlation_counts (fileLines : List String)
    (hnd : ((parseLoop .neither 0 fileLines ⟨[], [], none⟩).vars.map Prod.snd).Nodup) :
    (parseScript fileLines).npcs.length +
        (parseScript fileLines).missingVars.length =
      (parseLoop .neither 0 fileLines ⟨[], [], none⟩).vars.length ∧
    (parseScript fileLines).npcs.length +
        (parseScript fileLines).missingIds.length =
      (parseLoop .neither 0 fileLines ⟨[], [], none⟩).ids.length ∧
    (∀ e ∈ (parseScript fileLines).npcs, ∃ t,
      (t, e.1) ∈ (parseLoop .neither 0 fileLines ⟨[], [], none⟩).vars ∧
      (t, e.2) ∈ (parseLoop .neither 0 fileLines ⟨[], [], none⟩).ids) := by
  have hids : ((parseLoop .neither 0 fileLines ⟨[], [], none⟩).ids.map Prod.fst).Nodup :=
    (parseLoop_nodup fileLines .neither 0 ⟨[], [], none⟩ (by simp) (by simp)).1
  obtain ⟨c1, c2, c3⟩ := correlateAux_spec
    (parseLoop .neither 0 fileLines ⟨[], [], none⟩).vars
    (parseLoop .neither 0 fileLines ⟨[], [], none⟩).ids
    [] [] hids hnd (by simp)
  refine ⟨?_, ?_, ?_⟩
  · simpa [parseScript] using c1
  · simpa [parseScript] using c2
  · intro e he
    simp only [parseScript] at he
    rcases c3 e he with hin | ⟨t, ht⟩
    · simp at hin
    · exact ⟨t, ht⟩

/-- Concrete instance of C3 (amended) on a script with distinct variable
names: two entries, no orphans on either side. -/
theorem c3_correlation_counts_witness :
    (parseScript scriptDupVars).npcs.length +
        (parseScript scriptDupVars).missingVars.length =
      (parseLoop .neither 0 scriptDupVars ⟨[], [], none⟩).vars.length ∧
    (parseScript scriptDupVars).npcs.length +
        (parseScript scriptDupVars).missingIds.length =
      (parseLoop .neither 0 scriptDupVars ⟨[], [], none⟩).ids.length := by
  have h := c3_correlation_counts scriptDupVars (by decide)
  exact ⟨h.1, h.2.1⟩

/-! ## C2: atomicity of the commit -/

/-- **C2, counterexample.** On the no-existing-file path the target is
created and written directly: interrupting right after `File::create`
(prefix of length 1 of the operation trace) leaves the target existing but
empty — neither the original state (absent) nor the final content — so the
claim that no exit path leaves the target partially written fails for the
creation path. -/
theorem c2_counterexample :
    (applyOps ⟨none, none⟩
        ((creationTrace "L = H" [("a", ("T", true))]).take 1)).target = some "" ∧
    (applyOps ⟨none, none⟩ (creationTrace "L = H" [("a", ("T", true))])).target =
      some "local L = H\nif not L then return end\nif L then\n\tL.a = \"T\"\nend\n" ∧
    some "" ≠ (none : Option String) ∧
    ("" : String) ≠
      "local L = H\nif not L then return end\nif L then\n\tL.a = \"T\"\nend\n" := by
  refine ⟨by decide, by decide, by decide, by decide⟩

/-- **C2, amended.** On the existing-file path the commit is atomic: every
prefix of the operation trace up to (and excluding) the rename — i.e. the
temp-file creation, write and sync — leaves the target file's content
unchanged, and the completed trace (rename, or the cross-file-system
copy-then-delete fallback) leaves the full new content in the target with
no temporary file remaining.  (The creation path and an interrupted copy
fallback are *not* atomic; see the counterexample.) -/
theorem c2_commit_atomic_existing_path (orig tmp0 : Option String)
    (content : String) (cf : Bool) (k : Nat) (hk : k ≤ 3) :
    (applyOps ⟨orig, tmp0⟩ ((existingTrace content cf).take k)).target = orig ∧
    applyOps ⟨orig, tmp0⟩ (existingTrace content cf) = ⟨some content, none⟩ := by
  constructor
  · interval_cases k <;> cases cf <;>
      simp [existingTrace, applyOps, applyOp]
  · cases cf <;> simp [existingTrace, applyOps, applyOp]

/-- Concrete instance of C2 (amended): interruption just before the rename
leaves the original content in place; the full commit installs the new
content and removes the temp file. -/
theorem c2_commit_atomic_existing_path_witness :
    (applyOps ⟨some "old", none⟩ ((existingTrace "new" false).take 3)).target =
      some "old" ∧
    applyOps ⟨some "old", none⟩ (existingTrace "new" false) =
      ⟨some "new", none⟩ :=
  c2_commit_atomic_existing_path (some "old") none "new" false 3 (by decide)

/-! ## C4: the in-block merge step -/

/-- **C4.** Inside the matched block: an assignment line whose name is in
the values map removes that name from the pending set, and is rewritten in
place — keeping its trailing content after the closing quote and its
original terminator — exactly when the stored `is_valid` holds and the line
was commented or carried a different quoted value; and the `end` line
appends every not-yet-consumed value, in map order, immediately before
itself. -/
theorem c4_merge_block_step (header : String) (vals : VMap) (c t : String)
    (rest : List Seg) (caps : Caps) (tr : String) (ok : Bool)
    (hend : trimS c ≠ "end")
    (hparse : parseAssignment c = some caps)
    (hlook : lookupA caps.name vals = some (tr, ok)) :
    replaceLoop header .insideIf vals ((c, t) :: rest) =
      (if ok && (caps.isComment || caps.value ≠ tr) then
        ⟨(mkRewrittenLine caps.name tr caps.trailing, t) ::
            (replaceLoop header .insideIf (shiftRemoveA caps.name vals) rest).out,
          (replaceLoop header .insideIf (shiftRemoveA caps.name vals) rest).vals,
          (replaceLoop header .insideIf (shiftRemoveA caps.name vals) rest).state,
          true⟩
      else
        ⟨(c, t) ::
            (replaceLoop header .insideIf (shiftRemoveA caps.name vals) rest).out,
          (replaceLoop header .insideIf (shiftRemoveA caps.name vals) rest).vals,
          (replaceLoop header .insideIf (shiftRemoveA caps.name vals) rest).state,
          (replaceLoop header .insideIf (shiftRemoveA caps.name vals) rest).changed⟩) ∧
    (∀ (c' t' : String) (rest' : List Seg) (vals' : VMap), trimS c' = "end" →
      replaceLoop header .insideIf vals' ((c', t') :: rest') =
        ⟨valueSegs vals' ++ (c', t') :: rest', vals', .done, !vals'.isEmpty⟩) := by
  constructor
  · rw [replaceLoop]
    rw [if_neg hend, hparse]
    simp only [hlook]
    split <;> rfl
  · intro c' t' rest' vals' hend'
    rw [replaceLoop, if_pos hend']

/-- Concrete instance of C4: a commented line with a valid differing value
is rewritten in place (trailing comment kept); the `end` line receives the
unconsumed values. -/
theorem c4_merge_block_step_witness :
    replaceLoop "L = H" .insideIf [("a", ("new", true))]
        [("\t-- L.a = \"old\" -- note", "\n"), ("end", "\n")] =
      ⟨[("\tL.a = \"new\" -- note", "\n"), ("end", "\n")], [], .done, true⟩ ∧
    replaceLoop "L = H" .insideIf [("b", ("y", false))] [("end", "\n")] =
      ⟨[("\t-- L.b = \"y\"", "\n"), ("end", "\n")], [("b", ("y", false))],
        .done, true⟩ := by
  have h := c4_merge_block_step "L = H" [("a", ("new", true))]
    "\t-- L.a = \"old\" -- note" "\n" [("end", "\n")]
    ⟨true, "a", "old", " -- note"⟩ "new" true (by decide) (by decide) (by decide)
  constructor
  · rw [h.1]
    decide
  · rw [h.2 "end" "\n" [] [("b", ("y", false))] (by decide)]
    decide

/-! ## C7: work-set pruning -/

/-- The read-only scan removes from the work set exactly the names it
encounters as non-commented assignments inside the matched block. -/
theorem discardExisting_eq_filter (header : String) :
    ∀ (fileLines : List String) (st : MState) (m : List (String × Int)),
      discardExisting header st fileLines m =
        m.filter (fun p => decide (¬ p.1 ∈ scanNames header st fileLines)) := by
  intro fileLines
  induction fileLines with
  | nil =>
    intro st m
    cases st <;> simp [discardExisting, scanNames]
  | cons c rest ih =>
    intro st m
    cases st with
    | initial =>
      rw [discardExisting, scanNames]
      exact ih _ m
    | foundLocale =>
      rw [discardExisting, scanNames]
      exact ih _ m
    | done =>
      rw [discardExisting, scanNames]
      exact ih _ m
    | insideIf =>
      by_cases hend : trimS c = "end"
      · rw [discardExisting, if_pos hend, scanNames, if_pos hend]
        simp
      · rw [discardExisting, if_neg hend, scanNames, if_neg hend]
        cases hp : parseAssignment c with
        | none => exact ih _ m
        | some caps =>
          by_cases hc : caps.isComment
          · simp only [hc, if_true]
            exact ih _ m
          · simp only [hc, if_false, Bool.false_eq_true]
            rw [ih _ (shiftRemoveA caps.name m)]
            rw [shiftRemoveA, List.filter_filter]
            apply List.filter_congr
            intro p _
            by_cases h1 : p.1 = caps.name <;>
              by_cases h2 : p.1 ∈ scanNames header .insideIf rest <;>
                simp [h1, h2]

/-- **C7.** Work-set construction: with the full-refresh flag (no output
directory handed in) no pruning happens and every language keeps the whole
work set; otherwise each language whose file is readable has exactly the
names appearing as non-commented assignments inside its header's block
discarded; in both cases a language is kept if and only if its resulting
work set is non-empty — an empty one drops the language from the returned
data entirely. -/
theorem c7_pruning (initialData : List (String × String × String))
    (idsMap : List (String × Int)) (f : String → Option (List String)) :
    constructLanguageData initialData idsMap none =
      initialData.filterMap (fun lang =>
        if idsMap.isEmpty then none
        else some ⟨lang.1, lang.2.1, lang.2.2, idsMap⟩) ∧
    constructLanguageData initialData idsMap (some f) =
      initialData.filterMap (fun lang =>
        match f lang.2.1 with
        | some fileLines =>
          if (idsMap.filter (fun p =>
              decide (¬ p.1 ∈ scanNames lang.2.2 .initial fileLines))).isEmpty
          then none
          else some ⟨lang.1, lang.2.1, lang.2.2,
            idsMap.filter (fun p =>
              decide (¬ p.1 ∈ scanNames lang.2.2 .initial fileLines))⟩
        | none =>
          if idsMap.isEmpty then none
          else some ⟨lang.1, lang.2.1, lang.2.2, idsMap⟩) := by
  constructor
  · rfl
  · rw [constructLanguageData]
    apply List.filterMap_congr
    intro lang _
    cases hf : f lang.2.1 with
    | none => simp only [hf]
    | some fileLines =>
      simp only [hf, discardExisting_eq_filter]

/-! ## Well-formedness of merge inputs

The amended idempotence/round-trip statements restrict the values map to
the shapes the pipeline actually produces: word-character names (the regex
can only consume those) and translations free of raw quotes, backslashes
and line breaks (the fetcher escapes quotes; a raw `"`/`\` makes the
written line re-parse differently). -/

def goodName (n : String) : Bool := n.data.all isWordChar

def goodTrans (t : String) : Bool :=
  t.data.all (fun c => !(c = '"' || c = '\\' || c = '\n' || c = '\r'))

def goodVals (vals : VMap) : Bool :=
  vals.all (fun p => goodName p.1 && goodTrans p.2.1)

/-- Keys of a values map. -/
def keysOf (vals : VMap) : List String := vals.map Prod.fst

/-! ### List scanning helpers -/

theorem takeWhile_append_of_all {α : Type} {p : α → Bool} :
    ∀ {l r : List α}, (∀ c ∈ l, p c = true) →
      (l ++ r).takeWhile p = l ++ r.takeWhile p := by
  intro l
  induction l with
  | nil => intro r _; rfl
  | cons c l' ih =>
    intro r h
    rw [List.cons_append, List.takeWhile_cons_of_pos (h c (by simp)),
      List.cons_append, ih (fun x hx => h x (List.mem_cons_of_mem _ hx))]

theorem dropWhile_append_of_all {α : Type} {p : α → Bool} :
    ∀ {l r : List α}, (∀ c ∈ l, p c = true) →
      (l ++ r).dropWhile p = r.dropWhile p := by
  intro l
  induction l with
  | nil => intro r _; rfl
  | cons c l' ih =>
    intro r h
    rw [List.cons_append, List.dropWhile_cons_of_pos (h c (by simp)),
      ih (fun x hx => h x (List.mem_cons_of_mem _ hx))]

theorem takeWhile_eq_self_of_all {α : Type} {p : α → Bool} :
    ∀ {l : List α}, (∀ c ∈ l, p c = true) → l.takeWhile p = l := by
  intro l
  induction l with
  | nil => intro _; rfl
  | cons c l' ih =>
    intro h
    rw [List.takeWhile_cons_of_pos (h c (by simp)),
      ih (fun x hx => h x (List.mem_cons_of_mem _ hx))]

/-! ### Re-parsing of generated lines -/

theorem findClose_clean :
    ∀ (t : List Char) (prev : Char) (rest : List Char),
      (∀ c ∈ t, ¬(c = '"' ∨ c = '\\' ∨ c = '\n')) → prev ≠ '\\' →
      findClose prev (t ++ '"' :: rest) = some (t, rest) := by
  intro t
  induction t with
  | nil =>
    intro prev rest _ hprev
    rw [List.nil_append, findClose]
    rw [if_neg (by decide), if_pos (by simp [hprev])]
  | cons c t' ih =>
    intro prev rest hall hprev
    have hc := hall c (by simp)
    push_neg at hc
    rw [List.cons_append, findClose]
    rw [if_neg (by simp [hc.2.2]), if_neg (by simp [hc.1]),
      ih c rest (fun x hx => hall x (List.mem_cons_of_mem _ hx)) hc.2.1]

/-- The tail of the pattern applied to a generated
`<name> = "<translation>"<leftover>` text recovers its components. -/
theorem matchAfterDot_gen (n t leftover : String)
    (hn : goodName n = true) (ht : goodTrans t = true)
    (hl : ∀ c ∈ leftover.data, c ≠ '\n') :
    matchAfterDot (n.data ++ ' ' :: '=' :: ' ' :: '"' ::
        (t.data ++ '"' :: leftover.data)) = some (n, t, leftover) := by
  rw [goodName, List.all_eq_true] at hn
  rw [goodTrans, List.all_eq_true] at ht
  have ht' : ∀ c ∈ t.data, ¬(c = '"' ∨ c = '\\' ∨ c = '\n') := by
    intro c hc
    have := ht c hc
    simp only [Bool.not_eq_true', Bool.or_eq_false_iff, decide_eq_false_iff_not]
      at this
    tauto
  have h1 : List.takeWhile isWordChar
      (' ' :: '=' :: ' ' :: '"' :: (t.data ++ '"' :: leftover.data)) = [] :=
    List.takeWhile_cons_of_neg (by decide)
  have h2 : List.dropWhile isWordChar
      (' ' :: '=' :: ' ' :: '"' :: (t.data ++ '"' :: leftover.data)) =
      ' ' :: '=' :: ' ' :: '"' :: (t.data ++ '"' :: leftover.data) :=
    List.dropWhile_cons_of_neg (by decide)
  have h3 : List.dropWhile isWs
      (' ' :: '=' :: ' ' :: '"' :: (t.data ++ '"' :: leftover.data)) =
      '=' :: ' ' :: '"' :: (t.data ++ '"' :: leftover.data) := by
    rw [List.dropWhile_cons_of_pos (by decide),
      List.dropWhile_cons_of_neg (by decide)]
  have h4 : List.dropWhile isWs (' ' :: '"' :: (t.data ++ '"' :: leftover.data)) =
      '"' :: (t.data ++ '"' :: leftover.data) := by
    rw [List.dropWhile_cons_of_pos (by decide),
      List.dropWhile_cons_of_neg (by decide)]
  have h5 : List.takeWhile (fun x => decide (x ≠ '\n')) leftover.data =
      leftover.data :=
    takeWhile_eq_self_of_all (fun c hc => by simp [hl c hc])
  rw [matchAfterDot]
  rw [takeWhile_append_of_all hn, h1, List.append_nil,
    dropWhile_append_of_all hn, h2, h3]
  simp only [h4]
  rw [findClose_clean t.data '"' leftover.data ht' (by decide)]
  simp only [h5]

/-- A generated value line re-parses to (commented ⟺ invalid, its name,
its translation, empty trailing content). -/
theorem parse_mkValueLine (n t : String) (ok : Bool)
    (hn : goodName n = true) (ht : goodTrans t = true) :
    parseAssignment (mkValueLine n t ok) = some ⟨!ok, n, t, ""⟩ := by
  have hcore := matchAfterDot_gen n t "" hn ht (by simp)
  have hnil : ("" : String).data = [] := rfl
  rw [hnil] at hcore
  cases ok with
  | true =>
    have hdata : (mkValueLine n t true).data = '\t' :: 'L' :: '.' ::
        (n.data ++ ' ' :: '=' :: ' ' :: '"' :: (t.data ++ '"' :: [])) := by
      rw [mkValueLine]
      simp [String.data_append, List.append_assoc]
    rw [parseAssignment, hdata, findMatchL, tryMatchAt]
    rw [List.dropWhile_cons_of_pos (by decide),
      List.dropWhile_cons_of_neg (by decide)]
    simp only [hcore, Option.map_some']
    rfl
  | false =>
    have hdata : (mkValueLine n t false).data =
        '\t' :: '-' :: '-' :: ' ' :: 'L' :: '.' ::
          (n.data ++ ' ' :: '=' :: ' ' :: '"' :: (t.data ++ '"' :: [])) := by
      rw [mkValueLine]
      simp [String.data_append, List.append_assoc]
    rw [parseAssignment, hdata, findMatchL, tryMatchAt]
    rw [List.dropWhile_cons_of_pos (by decide),
      List.dropWhile_cons_of_neg (by decide)]
    have hw2 : List.dropWhile isWs (' ' :: 'L' :: '.' ::
        (n.data ++ ' ' :: '=' :: ' ' :: '"' :: (t.data ++ '"' :: []))) =
        'L' :: '.' :: (n.data ++ ' ' :: '=' :: ' ' :: '"' :: (t.data ++ '"' :: [])) := by
      rw [List.dropWhile_cons_of_pos (by decide),
        List.dropWhile_cons_of_neg (by decide)]
    simp only [hw2, hcore, Option.map_some']
    rfl

/-- A rewritten line re-parses to (uncommented, same name, the new
translation, the same trailing content). -/
theorem parse_mkRewrittenLine (n t leftover : String)
    (hn : goodName n = true) (ht : goodTrans t = true)
    (hl : ∀ c ∈ leftover.data, c ≠ '\n') :
    parseAssignment (mkRewrittenLine n t leftover) = some ⟨false, n, t, leftover⟩ := by
  have hdata : (mkRewrittenLine n t leftover).data =
      '\t' :: 'L' :: '.' ::
        (n.data ++ ' ' :: '=' :: ' ' :: '"' :: (t.data ++ '"' :: leftover.data)) := by
    rw [mkRewrittenLine]
    simp [String.data_append, List.append_assoc]
  rw [parseAssignment, hdata, findMatchL, tryMatchAt]
  rw [List.dropWhile_cons_of_pos (by decide),
    List.dropWhile_cons_of_neg (by decide)]
  simp only [matchAfterDot_gen n t leftover hn ht hl, Option.map_some']

/-! ### Trim and substring-search lemmas -/

theorem isSubL_pre (pat pre : List Char) : isSubL pat (pre ++ pat) = true := by
  induction pre with
  | nil =>
    cases pat with
    | nil => rfl
    | cons c r =>
      rw [List.nil_append, isSubL, List.isPrefixOf_iff_prefix.mpr
        (List.prefix_refl _)]
      simp
  | cons c pre' ih =>
    rw [List.cons_append, isSubL, ih]
    simp

theorem trimRightL_eq_self {l : List Char}
    (h : ∀ c, l.getLast? = some c → isWs c = false) : trimRightL l = l := by
  rw [trimRightL]
  cases hl : l.reverse with
  | nil =>
    have : l = [] := by simpa using congrArg List.reverse hl
    simp [this]
  | cons c r =>
    have hc : l.getLast? = some c := by
      rw [← List.head?_reverse, hl]
      rfl
    rw [List.dropWhile_cons_of_neg (by simp [h c hc]), ← hl,
      List.reverse_reverse]

/-- A header accepted by the amended merge statements: no surrounding
whitespace, not itself an assignment line, and not the block terminator. -/
def headerOk (h : String) : Bool :=
  (match h.data.head? with | some c => !isWs c | none => true) &&
  ((match h.data.getLast? with | some c => !isWs c | none => true) &&
    ((parseAssignment h).isNone && (h ≠ "end")))

theorem headerOk_trim {h : String} (hok : headerOk h = true) : trimS h = h := by
  rw [headerOk, Bool.and_eq_true, Bool.and_eq_true] at hok
  obtain ⟨h1, h2, _⟩ := hok
  rw [trimS, trimL, trimLeftL]
  have hleft : h.data.dropWhile isWs = h.data := by
    cases hd : h.data with
    | nil => rfl
    | cons c r =>
      rw [hd] at h1
      simp only [List.head?_cons] at h1
      exact List.dropWhile_cons_of_neg (by simp_all)
  rw [hleft, trimRightL_eq_self fun c hc => by
    rw [hc] at h2
    simpa using h2]

theorem headerOk_parse {h : String} (hok : headerOk h = true) :
    parseAssignment h = none := by
  rw [headerOk, Bool.and_eq_true, Bool.and_eq_true, Bool.and_eq_true] at hok
  exact Option.isNone_iff_eq_none.mp hok.2.2.1

theorem headerOk_ne_end {h : String} (hok : headerOk h = true) : h ≠ "end" := by
  rw [headerOk, Bool.and_eq_true, Bool.and_eq_true, Bool.and_eq_true] at hok
  simpa using hok.2.2.2

/-- The header is found on its own line: `line.trim().contains(header)`. -/
theorem contains_trim_self {h : String} (hok : headerOk h = true) :
    containsSub (trimS h) h = true := by
  rw [headerOk_trim hok, containsSub]
  simpa using isSubL_pre h.data []

/-- The header is found on the generated `local <header>` line. -/
theorem contains_trim_local {h : String} (hok : headerOk h = true) :
    containsSub (trimS ("local " ++ h)) h = true := by
  cases hd : h.data with
  | nil =>
    have : h = "" := by
      cases h with
      | mk d => cases hd; rfl
    rw [this]
    decide
  | cons c r =>
    rw [headerOk, Bool.and_eq_true, Bool.and_eq_true] at hok
    obtain ⟨_, h2, _⟩ := hok
    have hdata : ("local " ++ h).data =
        ['l', 'o', 'c', 'a', 'l', ' '] ++ h.data := by
      rw [String.data_append]
    have hlast : ∀ x, (['l', 'o', 'c', 'a', 'l', ' '] ++ h.data).getLast? =
        some x → isWs x = false := by
      intro x hx
      rw [List.getLast?_append, hd] at hx
      cases hgl : (c :: r).getLast? with
      | none =>
        rw [List.getLast?_eq_none_iff] at hgl
        exact absurd hgl (by simp)
      | some y =>
        rw [hgl] at hx
        have hyx : some y = some x := hx
        cases hyx
        rw [hd, hgl] at h2
        simpa using h2
    have htr : trimS ("local " ++ h) = "local " ++ h := by
      rw [trimS, trimL, trimLeftL, hdata, List.cons_append,
        List.dropWhile_cons_of_neg (by decide), ← List.cons_append,
        trimRightL_eq_self hlast, ← hdata]
    rw [htr, containsSub, hdata]
    exact isSubL_pre h.data _

theorem trimRightL_prefix (l : List Char) : (trimRightL l).IsPrefix l := by
  rw [trimRightL]
  apply List.reverse_suffix.mp
  rw [List.reverse_reverse]
  exact List.dropWhile_suffix isWs

/-- A generated value line never terminates the block. -/
theorem trimS_mkValueLine_ne_end (k t : String) (ok : Bool) :
    trimS (mkValueLine k t ok) ≠ "end" := by
  intro h
  have hdat : (trimS (mkValueLine k t ok)).data = ['e', 'n', 'd'] := by
    rw [h]
  cases ok with
  | true =>
    have hdata : (mkValueLine k t true).data =
        '\t' :: 'L' :: '.' :: (k.data ++ (" = \"" ++ t ++ "\"").data) := by
      rw [mkValueLine]
      simp [String.data_append, List.append_assoc]
    rw [trimS] at hdat
    simp only [trimL, trimLeftL, hdata,
      List.dropWhile_cons_of_pos (show isWs '\t' = true by decide),
      List.dropWhile_cons_of_neg (show ¬ isWs 'L' = true by decide)] at hdat
    have hpre := trimRightL_prefix
      ('L' :: '.' :: (k.data ++ (" = \"" ++ t ++ "\"").data))
    rw [hdat] at hpre
    obtain ⟨s, hs⟩ := hpre
    simp at hs
  | false =>
    have hdata : (mkValueLine k t false).data =
        '\t' :: '-' :: '-' :: ' ' :: 'L' :: '.' ::
          (k.data ++ (" = \"" ++ t ++ "\"").data) := by
      rw [mkValueLine]
      simp [String.data_append, List.append_assoc]
    rw [trimS] at hdat
    simp only [trimL, trimLeftL, hdata,
      List.dropWhile_cons_of_pos (show isWs '\t' = true by decide),
      List.dropWhile_cons_of_neg (show ¬ isWs '-' = true by decide)] at hdat
    have hpre := trimRightL_prefix
      ('-' :: '-' :: ' ' :: 'L' :: '.' :: (k.data ++ (" = \"" ++ t ++ "\"").data))
    rw [hdat] at hpre
    obtain ⟨s, hs⟩ := hpre
    simp at hs

/-! ## C9: the write/scan round trip -/

/-- Scanning the generated value lines collects exactly the valid names. -/
theorem scanNames_valueSegs (header : String) :
    ∀ (vals : VMap) (rest : List String), goodVals vals = true →
      scanNames header .insideIf ((valueSegs vals).map Prod.fst ++ rest) =
        (vals.filter (fun p => p.2.2)).map Prod.fst ++
          scanNames header .insideIf rest := by
  intro vals
  induction vals with
  | nil => intro rest _; simp [valueSegs]
  | cons p vals' ih =>
    intro rest hv
    obtain ⟨k, t, ok⟩ := p
    rw [goodVals, List.all_cons] at hv
    simp only [Bool.and_eq_true] at hv
    obtain ⟨⟨hk, ht⟩, hv'⟩ := hv
    rw [← goodVals] at hv'
    have hline := parse_mkValueLine k t ok hk ht
    have hne := trimS_mkValueLine_ne_end k t ok
    have hmap : (valueSegs ((k, t, ok) :: vals')).map Prod.fst ++ rest =
        mkValueLine k t ok :: ((valueSegs vals').map Prod.fst ++ rest) := by
      simp [valueSegs]
    rw [hmap, scanNames, if_neg hne, hline]
    cases ok with
    | true =>
      show k :: scanNames header .insideIf
          ((valueSegs vals').map Prod.fst ++ rest) = _
      rw [ih rest hv', List.filter_cons_of_pos rfl, List.map_cons,
        List.cons_append]
    | false =>
      show scanNames header .insideIf ((valueSegs vals').map Prod.fst ++ rest) = _
      rw [ih rest hv', List.filter_cons_of_neg Bool.false_ne_true]

/-- Scanning a freshly synthesized file collects exactly the names written
with `is_valid = true`. -/
theorem scanNames_caseA (header : String) (vals : VMap)
    (hok : headerOk header = true) (hv : goodVals vals = true) :
    scanNames header .initial ((caseASegs header vals).map Prod.fst) =
      (vals.filter (fun p => p.2.2)).map Prod.fst := by
  have hmap : (caseASegs header vals).map Prod.fst =
      ("local " ++ header) :: "if not L then return end" :: "if L then" ::
        ((valueSegs vals).map Prod.fst ++ ["end"]) := by
    simp [caseASegs, List.map_append]
  rw [hmap, scanNames, if_pos (contains_trim_local hok)]
  rw [scanNames, if_neg (by decide)]
  have hguard : (startsWithS (trimS "if not L then return end") "L =" &&
      trimS "if not L then return end" ≠ header) = false := by
    rw [show startsWithS (trimS "if not L then return end") "L =" = false
      from by decide, Bool.false_and]
  rw [hguard, if_neg (by simp)]
  rw [scanNames, if_pos (by decide)]
  rw [scanNames_valueSegs header vals ["end"] hv]
  rw [scanNames, if_pos (by decide)]
  simp

/-- **C9, counterexample.** A valid translation consisting of one backslash
is written as `\tL.a = "\"`; the scan's regex finds no unescaped closing
quote in that line, so the line does not match and the name `a` — although
written with `is_valid = true` — is *not* removed from the work set,
against the claim's "exactly the variable names written with
`is_valid = true`". -/
theorem c9_counterexample :
    discardExisting "L = H" .initial
        ((caseASegs "L = H" [("a", ("\\", true))]).map Prod.fst)
        [("a", (1 : Int))] = [("a", (1 : Int))] ∧
    (([("a", ("\\", true))] : VMap).filter (fun q => q.2.2)).map Prod.fst =
      ["a"] ∧
    [("a", (1 : Int))] ≠
      ([("a", (1 : Int))].filter (fun p => decide (¬ p.1 ∈ ["a"]))) := by
  refine ⟨by decide, by decide, by decide⟩

/-- **C9, amended.** For every translation map whose names are word
characters and whose translations contain no quote, backslash or line
break (the shapes the fetcher emits), and every header without surrounding
whitespace that is not itself an assignment line: writing the freshly
synthesized Case-A file and re-scanning it with the read-only discard scan
removes from any work set exactly the names written with
`is_valid = true`; commented placeholder lines are not recovered. -/
theorem c9_round_trip (header : String) (vals : VMap) (m : List (String × Int))
    (hok : headerOk header = true) (hv : goodVals vals = true) :
    discardExisting header .initial ((caseASegs header vals).map Prod.fst) m =
      m.filter (fun p =>
        decide (¬ p.1 ∈ (vals.filter (fun q => q.2.2)).map Prod.fst)) := by
  rw [discardExisting_eq_filter, scanNames_caseA header vals hok hv]

/-- Concrete instance of C9 (amended): the valid name is removed, the
invalid one and unrelated names are kept. -/
theorem c9_round_trip_witness :
    discardExisting "L = BigWigs:NewBossLocale(\"M\", \"deDE\")" .initial
        ((caseASegs "L = BigWigs:NewBossLocale(\"M\", \"deDE\")"
          [("bob", ("Bob", true)), ("why", ("Why", false))]).map Prod.fst)
        [("bob", (1 : Int)), ("why", (2 : Int)), ("zed", (3 : Int))] =
      [("why", (2 : Int)), ("zed", (3 : Int))] := by
  rw [c9_round_trip _ _ _ (by decide) (by decide)]
  decide

/-! ## C1: merge idempotence — infrastructure -/

theorem matchAfterDot_trailing {l : List Char} {n v tr : String}
    (h : matchAfterDot l = some (n, v, tr)) : ∀ c ∈ tr.data, c ≠ '\n' := by
  rw [matchAfterDot] at h
  split at h
  · split at h
    · split at h
      · simp only [Option.some.injEq, Prod.mk.injEq] at h
        obtain ⟨-, -, h3⟩ := h
        intro x hx
        rw [← h3] at hx
        have := List.mem_takeWhile_imp hx
        simpa using this
      · exact absurd h (by simp)
    · exact absurd h (by simp)
  · exact absurd h (by simp)

theorem tryMatchAt_trailing {l : List Char} {caps : Caps}
    (h : tryMatchAt l = some caps) : ∀ x ∈ caps.trailing.data, x ≠ '\n' := by
  rw [tryMatchAt] at h
  split at h
  · obtain ⟨a, ha, hf⟩ := Option.map_eq_some'.mp h
    intro x hx
    rw [← hf] at hx
    exact @matchAfterDot_trailing _ a.1 a.2.1 a.2.2 ha x hx
  · split at h
    · obtain ⟨a, ha, hf⟩ := Option.map_eq_some'.mp h
      intro x hx
      rw [← hf] at hx
      exact @matchAfterDot_trailing _ a.1 a.2.1 a.2.2 ha x hx
    · exact absurd h (by simp)
  · exact absurd h (by simp)

theorem parseAssignment_trailing {c : String} {caps : Caps}
    (h : parseAssignment c = some caps) : ∀ x ∈ caps.trailing.data, x ≠ '\n' := by
  rw [parseAssignment] at h
  have hgen : ∀ (l : List Char), findMatchL l = some caps →
      ∀ x ∈ caps.trailing.data, x ≠ '\n' := by
    intro l
    induction l with
    | nil => intro h0; rw [findMatchL] at h0; exact absurd h0 (by simp)
    | cons a l' ih =>
      intro h0
      rw [findMatchL] at h0
      split at h0
      · cases h0
        exact tryMatchAt_trailing (by assumption)
      · exact ih h0
  exact hgen c.data h

theorem goodVals_mem {vals : VMap} {k tr : String} {ok : Bool}
    (hv : goodVals vals = true) (h : (k, (tr, ok)) ∈ vals) :
    goodName k = true ∧ goodTrans tr = true := by
  rw [goodVals, List.all_eq_true] at hv
  have := hv _ h
  simpa [Bool.and_eq_true] using this

theorem goodVals_sublist {v1 v2 : VMap} (hs : List.Sublist v1 v2)
    (hv : goodVals v2 = true) : goodVals v1 = true := by
  rw [goodVals, List.all_eq_true] at hv ⊢
  exact fun x hx => hv x (hs.subset hx)

theorem shiftRemoveA_cons_self {α : Type} {k : String} {v : α}
    {m : List (String × α)} (h : k ∉ m.map Prod.fst) :
    shiftRemoveA k ((k, v) :: m) = m := by
  rw [shiftRemoveA, List.filter_cons_of_neg (by simp)]
  rw [← shiftRemoveA]
  exact shiftRemoveA_of_not_mem h

/-- `State::Done` never iterates: the remaining text is copied verbatim. -/
theorem replaceLoop_done (header : String) (vals : VMap) (segs : List Seg) :
    replaceLoop header .done vals segs = ⟨segs, vals, .done, false⟩ := by
  cases segs <;> rfl

/-- Composition of two loop runs. -/
def seqOut (rA rB : LoopOut) : LoopOut :=
  ⟨rA.out ++ rB.out, rB.vals, rB.state, rA.changed || rB.changed⟩

/-- The loop over concatenated text is the loop over the first part
followed by the loop over the second, resumed in the reached state. -/
theorem replaceLoop_append (header : String) :
    ∀ (A B : List Seg) (st : MState) (vals : VMap),
      replaceLoop header st vals (A ++ B) =
        seqOut (replaceLoop header st vals A)
          (replaceLoop header (replaceLoop header st vals A).state
            (replaceLoop header st vals A).vals B) := by
  intro A
  induction A with
  | nil =>
    intro B st vals
    cases st <;> simp [replaceLoop, replaceLoop_done, seqOut]
  | cons s A' ih =>
    intro B st vals
    obtain ⟨c, t⟩ := s
    cases st with
    | done =>
      rw [replaceLoop_done, replaceLoop_done, replaceLoop_done]
      simp [seqOut]
    | initial =>
      rw [List.cons_append]
      simp only [replaceLoop]
      rw [ih]
      simp [consOut, seqOut]
    | foundLocale =>
      rw [List.cons_append]
      simp only [replaceLoop]
      rw [ih]
      simp [consOut, seqOut]
    | insideIf =>
      rw [List.cons_append]
      by_cases hend : trimS c = "end"
      · simp only [replaceLoop, if_pos hend]
        simp [seqOut, List.append_assoc]
      · simp only [replaceLoop, if_neg hend]
        cases hp : parseAssignment c with
        | none =>
          simp only [hp]
          rw [ih]
          simp [consOut, seqOut]
        | some caps =>
          simp only [hp]
          cases hl : lookupA caps.name vals with
          | none =>
            simp only [hl]
            rw [ih]
            simp [consOut, seqOut]
          | some tv =>
            obtain ⟨tr, ok⟩ := tv
            simp only [hl]
            by_cases hcond : (ok && (caps.isComment || caps.value ≠ tr)) = true
            · rw [if_pos hcond, if_pos hcond, ih]
              simp [consOut, setChanged, seqOut]
            · rw [if_neg hcond, if_neg hcond, ih]
              simp [consOut, seqOut]

/-- Scanning lines that carry the generated value texts (any terminators)
consumes the whole values map, leaves every line unchanged and flushes
nothing. -/
theorem replaceLoop_consume_values (header : String) :
    ∀ (vals : VMap) (V2 X : List Seg),
      goodVals vals = true → (keysOf vals).Nodup →
      V2.map Prod.fst = (valueSegs vals).map Prod.fst →
      replaceLoop header .insideIf vals (V2 ++ X) =
        ⟨V2 ++ (replaceLoop header .insideIf [] X).out,
          (replaceLoop header .insideIf [] X).vals,
          (replaceLoop header .insideIf [] X).state,
          (replaceLoop header .insideIf [] X).changed⟩ := by
  intro vals
  induction vals with
  | nil =>
    intro V2 X _ _ hmap
    have hV2 : V2 = [] := by
      simpa [valueSegs] using hmap
    subst hV2
    simp
  | cons p vals' ih =>
    intro V2 X hv hnd hmap
    obtain ⟨k, t, ok⟩ := p
    cases V2 with
    | nil => simp [valueSegs] at hmap
    | cons s2 V2' =>
      obtain ⟨c2, t2⟩ := s2
      have hsplit : c2 = mkValueLine k t ok ∧
          V2'.map Prod.fst = (valueSegs vals').map Prod.fst := by
        simpa [valueSegs] using hmap
      obtain ⟨hc2, hmap'⟩ := hsplit
      subst hc2
      rw [goodVals, List.all_cons] at hv
      simp only [Bool.and_eq_true] at hv
      obtain ⟨⟨hk, ht⟩, hv'⟩ := hv
      rw [← goodVals] at hv'
      rw [keysOf, List.map_cons, List.nodup_cons] at hnd
      obtain ⟨hknotin, hnd'⟩ := hnd
      rw [← keysOf] at hnd'
      rw [List.cons_append, replaceLoop,
        if_neg (trimS_mkValueLine_ne_end k t ok),
        parse_mkValueLine k t ok hk ht]
      have hlk : lookupA k (((k, (t, ok)) :: vals') : VMap) = some (t, ok) := by
        rw [lookupA, if_pos rfl]
      have hcond : (ok && ((!ok) || decide (¬ t = t))) = false := by
        cases ok <;> simp
      simp only [hlk, hcond, Bool.false_eq_true, if_false,
        shiftRemoveA_cons_self hknotin]
      rw [ih V2' X hv' hnd' hmap']
      simp [consOut]

/-- A rewritten line never terminates the block. -/
theorem trimS_mkRewrittenLine_ne_end (n t leftover : String) :
    trimS (mkRewrittenLine n t leftover) ≠ "end" := by
  intro h
  have hdat : (trimS (mkRewrittenLine n t leftover)).data = ['e', 'n', 'd'] := by
    rw [h]
  have hdata : (mkRewrittenLine n t leftover).data =
      '\t' :: 'L' :: '.' :: (n.data ++ ((" = \"" ++ t ++ "\"") ++ leftover).data) := by
    rw [mkRewrittenLine]
    simp [String.data_append, List.append_assoc]
  rw [trimS] at hdat
  simp only [trimL, trimLeftL, hdata,
    List.dropWhile_cons_of_pos (show isWs '\t' = true by decide),
    List.dropWhile_cons_of_neg (show ¬ isWs 'L' = true by decide)] at hdat
  have hpre := trimRightL_prefix
    ('L' :: '.' :: (n.data ++ ((" = \"" ++ t ++ "\"") ++ leftover).data))
  rw [hdat] at hpre
  obtain ⟨s, hs⟩ := hpre
  simp at hs

/-- Re-scanning the loop's own output (with arbitrary terminators) changes
nothing: every line is left in place, nothing is flushed, and the scan ends
`Done` when the first run did — otherwise in the first run's state with the
first run's remaining values. -/
theorem replaceLoop_rescan (header : String) :
    ∀ (segs : List Seg) (st : MState) (vals : VMap) (segs2 : List Seg),
      goodVals vals = true → (keysOf vals).Nodup →
      segs2.map Prod.fst = (replaceLoop header st vals segs).out.map Prod.fst →
      (replaceLoop header st vals segs2).out = segs2 ∧
      (replaceLoop header st vals segs2).changed = false ∧
      ((replaceLoop header st vals segs).state = .done →
        (replaceLoop header st vals segs2).state = .done) ∧
      ((replaceLoop header st vals segs).state ≠ .done →
        (replaceLoop header st vals segs2).state =
          (replaceLoop header st vals segs).state ∧
        (replaceLoop header st vals segs2).vals =
          (replaceLoop header st vals segs).vals) := by
  intro segs
  induction segs with
  | nil =>
    intro st vals segs2 hv hnd hmap
    have hm0 : segs2.map Prod.fst = [] := by
      cases st <;> simpa [replaceLoop, replaceLoop_done] using hmap
    have hnil : segs2 = [] := List.map_eq_nil_iff.mp hm0
    subst hnil
    cases st <;> simp [replaceLoop, replaceLoop_done]
  | cons s rest ih =>
    intro st vals segs2 hv hnd hmap
    obtain ⟨c, t⟩ := s
    cases st with
    | done =>
      rw [replaceLoop_done header vals ((c, t) :: rest)] at hmap
      rw [replaceLoop_done header vals segs2,
        replaceLoop_done header vals ((c, t) :: rest)]
      simp
    | initial =>
      rw [replaceLoop] at hmap
      cases segs2 with
      | nil => simp [consOut] at hmap
      | cons s2 segs2' =>
        obtain ⟨c2, t2⟩ := s2
        simp only [consOut, List.map_cons, List.cons.injEq] at hmap
        obtain ⟨hc2, hmap'⟩ := hmap
        rw [hc2]
        obtain ⟨ih1, ih2, ih3, ih4⟩ :=
          ih (if containsSub (trimS c) header then MState.foundLocale
            else .initial) vals segs2' hv hnd hmap'
        simp only [replaceLoop, consOut]
        exact ⟨by rw [ih1], ih2, ih3, ih4⟩
    | foundLocale =>
      rw [replaceLoop] at hmap
      cases segs2 with
      | nil => simp [consOut] at hmap
      | cons s2 segs2' =>
        obtain ⟨c2, t2⟩ := s2
        simp only [consOut, List.map_cons, List.cons.injEq] at hmap
        obtain ⟨hc2, hmap'⟩ := hmap
        rw [hc2]
        obtain ⟨ih1, ih2, ih3, ih4⟩ :=
          ih (if trimS c = "if L then" then MState.insideIf
            else if startsWithS (trimS c) "L =" && trimS c ≠ header then
              MState.initial
            else .foundLocale) vals segs2' hv hnd hmap'
        simp only [replaceLoop, consOut]
        exact ⟨by rw [ih1], ih2, ih3, ih4⟩
    | insideIf =>
      by_cases hend : trimS c = "end"
      · rw [replaceLoop, if_pos hend] at hmap
        simp only [List.map_append, List.map_cons] at hmap
        obtain ⟨V2, rest2, hsegs2, hV2, hrest2⟩ :=
          List.map_eq_append_iff.mp hmap
        cases rest2 with
        | nil => simp at hrest2
        | cons s2' segs2'' =>
          obtain ⟨c2', t2'⟩ := s2'
          simp only [List.map_cons, List.cons.injEq] at hrest2
          obtain ⟨hc2', -⟩ := hrest2
          subst hsegs2
          rw [hc2']
          have hinner : replaceLoop header .insideIf ([] : VMap)
              ((c, t2') :: segs2'') = ⟨(c, t2') :: segs2'', [], .done, false⟩ := by
            rw [replaceLoop, if_pos hend]
            simp [valueSegs]
          have hrund : (replaceLoop header .insideIf vals
              ((c, t) :: rest)).state = .done := by
            rw [replaceLoop, if_pos hend]
          rw [replaceLoop_consume_values header vals V2 ((c, t2') :: segs2'')
            hv hnd hV2, hinner]
          exact ⟨rfl, rfl, fun _ => rfl, fun hne => absurd hrund hne⟩
      · cases segs2 with
        | nil =>
          exfalso
          rw [replaceLoop, if_neg hend] at hmap
          cases hp : parseAssignment c with
          | none =>
            simp only [hp, consOut] at hmap
            simp at hmap
          | some caps =>
            simp only [hp] at hmap
            cases hl : lookupA caps.name vals with
            | none =>
              simp only [hl, consOut] at hmap
              simp at hmap
            | some tv =>
              obtain ⟨tr, ok⟩ := tv
              simp only [hl] at hmap
              by_cases hcond : (ok && (caps.isComment || caps.value ≠ tr)) = true
              · rw [if_pos hcond] at hmap
                simp [setChanged, consOut] at hmap
              · rw [if_neg hcond] at hmap
                simp [consOut] at hmap
        | cons s2 segs2' =>
          obtain ⟨c2, t2⟩ := s2
          rw [replaceLoop, if_neg hend] at hmap
          cases hp : parseAssignment c with
          | none =>
            simp only [hp, consOut, List.map_cons, List.cons.injEq] at hmap
            obtain ⟨hc2, hmap'⟩ := hmap
            rw [hc2]
            obtain ⟨ih1, ih2, ih3, ih4⟩ := ih .insideIf vals segs2' hv hnd hmap'
            simp only [replaceLoop, if_neg hend, hp, consOut]
            exact ⟨by rw [ih1], ih2, ih3, ih4⟩
          | some caps =>
            cases hl : lookupA caps.name vals with
            | none =>
              simp only [hp, hl, consOut, List.map_cons, List.cons.injEq] at hmap
              obtain ⟨hc2, hmap'⟩ := hmap
              rw [hc2]
              obtain ⟨ih1, ih2, ih3, ih4⟩ :=
                ih .insideIf vals segs2' hv hnd hmap'
              simp only [replaceLoop, if_neg hend, hp, hl, consOut]
              exact ⟨by rw [ih1], ih2, ih3, ih4⟩
            | some tv =>
              obtain ⟨tr, ok⟩ := tv
              have hmem : (caps.name, (tr, ok)) ∈ vals := lookupA_mem hl
              obtain ⟨hgn, hgt⟩ := goodVals_mem hv hmem
              have hv' : goodVals (shiftRemoveA caps.name vals) = true :=
                goodVals_sublist (shiftRemoveA_sublist _ _) hv
              have hnd' : (keysOf (shiftRemoveA caps.name vals)).Nodup :=
                List.Nodup.sublist (shiftRemoveA_keys_sublist _ _) hnd
              simp only [hp, hl] at hmap
              by_cases hcond : (ok && (caps.isComment || caps.value ≠ tr)) = true
              · rw [if_pos hcond] at hmap
                simp only [setChanged, consOut, List.map_cons,
                  List.cons.injEq] at hmap
                obtain ⟨hc2, hmap'⟩ := hmap
                subst hc2
                obtain ⟨ih1, ih2, ih3, ih4⟩ := ih .insideIf
                  (shiftRemoveA caps.name vals) segs2' hv' hnd' hmap'
                have hreparse : parseAssignment (mkRewrittenLine caps.name tr
                    caps.trailing) = some ⟨false, caps.name, tr, caps.trailing⟩ :=
                  parse_mkRewrittenLine caps.name tr caps.trailing hgn hgt
                    (parseAssignment_trailing hp)
                have hrun : replaceLoop header .insideIf vals ((c, t) :: rest) =
                    setChanged (consOut (mkRewrittenLine caps.name tr
                      caps.trailing, t) (replaceLoop header .insideIf
                        (shiftRemoveA caps.name vals) rest)) := by
                  rw [replaceLoop, if_neg hend]
                  simp only [hp, hl]
                  rw [if_pos hcond]
                have hscan : replaceLoop header .insideIf vals
                    ((mkRewrittenLine caps.name tr caps.trailing, t2) :: segs2') =
                    consOut (mkRewrittenLine caps.name tr caps.trailing, t2)
                      (replaceLoop header .insideIf
                        (shiftRemoveA caps.name vals) segs2') := by
                  rw [replaceLoop, if_neg (trimS_mkRewrittenLine_ne_end _ _ _),
                    hreparse]
                  simp only [hl]
                  rw [if_neg (by cases ok <;> simp)]
                rw [hrun, hscan]
                simp only [setChanged, consOut]
                exact ⟨by rw [ih1], ih2, ih3, ih4⟩
              · rw [if_neg hcond] at hmap
                simp only [consOut, List.map_cons, List.cons.injEq] at hmap
                obtain ⟨hc2, hmap'⟩ := hmap
                rw [hc2]
                obtain ⟨ih1, ih2, ih3, ih4⟩ := ih .insideIf
                  (shiftRemoveA caps.name vals) segs2' hv' hnd' hmap'
                have hrun : replaceLoop header .insideIf vals ((c, t) :: rest) =
                    consOut (c, t) (replaceLoop header .insideIf
                      (shiftRemoveA caps.name vals) rest) := by
                  rw [replaceLoop, if_neg hend]
                  simp only [hp, hl]
                  rw [if_neg hcond]
                have hscan : replaceLoop header .insideIf vals ((c, t2) :: segs2') =
                    consOut (c, t2) (replaceLoop header .insideIf
                      (shiftRemoveA caps.name vals) segs2') := by
                  rw [replaceLoop, if_neg hend]
                  simp only [hp, hl]
                  rw [if_neg hcond]
                rw [hrun, hscan]
                simp only [consOut]
                exact ⟨by rw [ih1], ih2, ih3, ih4⟩

/-- The remaining values of a run form a sublist of the initial ones. -/
theorem replaceLoop_vals_sublist (header : String) :
    ∀ (segs : List Seg) (st : MState) (vals : VMap),
      List.Sublist (replaceLoop header st vals segs).vals vals := by
  intro segs
  induction segs with
  | nil =>
    intro st vals
    cases st <;> simp [replaceLoop, replaceLoop_done]
  | cons s rest ih =>
    intro st vals
    obtain ⟨c, t⟩ := s
    cases st with
    | done => rw [replaceLoop_done]
    | initial => exact ih _ vals
    | foundLocale => exact ih _ vals
    | insideIf =>
      by_cases hend : trimS c = "end"
      · rw [replaceLoop, if_pos hend]
      · rw [replaceLoop, if_neg hend]
        cases hp : parseAssignment c with
        | none =>
          simp only [hp]
          exact ih _ vals
        | some caps =>
          simp only [hp]
          cases hl : lookupA caps.name vals with
          | none =>
            simp only [hl]
            exact ih _ vals
          | some tv =>
            obtain ⟨tr, ok⟩ := tv
            simp only [hl]
            by_cases hcond : (ok && (caps.isComment || caps.value ≠ tr)) = true
            · rw [if_pos hcond]
              exact (ih _ _).trans (shiftRemoveA_sublist _ _)
            · rw [if_neg hcond]
              exact (ih _ _).trans (shiftRemoveA_sublist _ _)

/-- From `InsideIf` the loop can only stay `InsideIf` or finish `Done`. -/
theorem replaceLoop_insideIf_state (header : String) :
    ∀ (segs : List Seg) (vals : VMap),
      (replaceLoop header .insideIf vals segs).state = .insideIf ∨
      (replaceLoop header .insideIf vals segs).state = .done := by
  intro segs
  induction segs with
  | nil => intro vals; exact Or.inl rfl
  | cons s rest ih =>
    intro vals
    obtain ⟨c, t⟩ := s
    by_cases hend : trimS c = "end"
    · rw [replaceLoop, if_pos hend]
      exact Or.inr rfl
    · rw [replaceLoop, if_neg hend]
      cases hp : parseAssignment c with
      | none =>
        simp only [hp]
        exact ih vals
      | some caps =>
        simp only [hp]
        cases hl : lookupA caps.name vals with
        | none =>
          simp only [hl]
          exact ih vals
        | some tv =>
          obtain ⟨tr, ok⟩ := tv
          simp only [hl]
          by_cases hcond : (ok && (caps.isComment || caps.value ≠ tr)) = true
          · rw [if_pos hcond]
            exact ih _
          · rw [if_neg hcond]
            exact ih _

/-- A run that ends in `Initial` or `FoundLocale` never entered the block:
it passed every line through unchanged and consumed nothing. -/
theorem replaceLoop_pre_id (header : String) :
    ∀ (segs : List Seg) (st : MState) (vals : VMap),
      (st = .initial ∨ st = .foundLocale) →
      ((replaceLoop header st vals segs).state = .initial ∨
        (replaceLoop header st vals segs).state = .foundLocale) →
      replaceLoop header st vals segs =
        ⟨segs, vals, (replaceLoop header st vals segs).state, false⟩ := by
  intro segs
  induction segs with
  | nil =>
    intro st vals hst _
    rcases hst with h | h <;> subst h <;> rfl
  | cons s rest ih =>
    intro st vals hst hfin
    obtain ⟨c, t⟩ := s
    rcases hst with h | h <;> subst h
    · rw [replaceLoop] at hfin ⊢
      simp only [consOut] at hfin ⊢
      rw [ih _ vals (by split <;> simp) hfin]
    · rw [replaceLoop] at hfin ⊢
      simp only [consOut] at hfin ⊢
      by_cases hif : trimS c = "if L then"
      · rw [if_pos hif] at hfin ⊢
        rcases replaceLoop_insideIf_state header rest vals with h2 | h2 <;>
          rw [h2] at hfin <;> simp at hfin
      · rw [if_neg hif] at hfin ⊢
        rw [ih _ vals (by split <;> simp) hfin]

/-- Whitespace-only text leaves the scan in `Initial` or `FoundLocale`. -/
theorem replaceLoop_blank_state (header : String) :
    ∀ (segs : List Seg) (st : MState) (vals : VMap),
      isBlank segs = true →
      (st = .initial ∨ st = .foundLocale) →
      ((replaceLoop header st vals segs).state = .initial ∨
        (replaceLoop header st vals segs).state = .foundLocale) := by
  intro segs
  induction segs with
  | nil =>
    intro st vals _ hst
    rcases hst with h | h <;> subst h
    · exact Or.inl rfl
    · exact Or.inr rfl
  | cons s rest ih =>
    intro st vals hblank hst
    obtain ⟨c, t⟩ := s
    rw [isBlank, List.all_cons, Bool.and_eq_true] at hblank
    obtain ⟨hc, hrest⟩ := hblank
    simp only [decide_eq_true_eq] at hc
    rw [← isBlank] at hrest
    rcases hst with h | h <;> subst h
    · rw [replaceLoop]
      simp only [consOut]
      exact ih _ vals hrest (by split <;> simp)
    · rw [replaceLoop]
      simp only [consOut]
      have h1 : ¬ trimS c = "if L then" := by rw [hc]; decide
      have h2 : (startsWithS (trimS c) "L =" && trimS c ≠ header) = false := by
        rw [hc]
        rw [show startsWithS "" "L =" = false from by decide, Bool.false_and]
      rw [if_neg h1, h2]
      exact ih _ vals hrest (by simp)

/-- Appending the line terminator either changes no line contents (it
terminates a final unterminated line) or appends one empty line. -/
theorem appendNL_cases :
    ∀ (l : List Seg), (appendNL l).map Prod.fst = l.map Prod.fst ∨
      appendNL l = l ++ [("", lineEnding)] := by
  intro l
  induction l with
  | nil => exact Or.inr rfl
  | cons s l' ih =>
    obtain ⟨c, t⟩ := s
    cases l' with
    | nil =>
      by_cases ht : t = ""
      · left
        rw [appendNL, if_pos ht]
        simp
      · right
        rw [appendNL, if_neg ht]
        rfl
    | cons s' l'' =>
      rcases ih with h | h
      · left
        rw [appendNL, List.map_cons, List.map_cons, h]
      · right
        rw [appendNL, h, List.cons_append]
        simp

/-- Consuming the value lines and stopping at `end` from inside the block. -/
theorem replaceLoop_tail_block (header : String) (vals : VMap)
    (hv : goodVals vals = true) (hnd : (keysOf vals).Nodup) :
    replaceLoop header .insideIf vals (valueSegs vals ++ [("end", lineEnding)]) =
      ⟨valueSegs vals ++ [("end", lineEnding)], [], .done, false⟩ := by
  rw [replaceLoop_consume_values header vals (valueSegs vals) _ hv hnd rfl]
  have hinner : replaceLoop header .insideIf ([] : VMap)
      [("end", lineEnding)] = ⟨[("end", lineEnding)], [], .done, false⟩ := by
    rw [replaceLoop, if_pos (by decide)]
    simp [valueSegs]
  rw [hinner]

/-- From `FoundLocale`, the `if L then` line opens the block and the value
lines and `end` line finish it. -/
theorem replaceLoop_fl_ifline (header : String) (vals : VMap)
    (hv : goodVals vals = true) (hnd : (keysOf vals).Nodup) :
    replaceLoop header .foundLocale vals (("if L then", lineEnding) ::
        (valueSegs vals ++ [("end", lineEnding)])) =
      ⟨("if L then", lineEnding) :: (valueSegs vals ++ [("end", lineEnding)]),
        [], .done, false⟩ := by
  rw [replaceLoop, if_pos (by decide)]
  rw [replaceLoop_tail_block header vals hv hnd]
  rfl

/-- Scanning the fallback block from any non-`Done` state finds the header
(or passes it inertly inside the block), enters the `if`, consumes every
value line and finishes `Done` with nothing flushed. -/
theorem replaceLoop_block (header : String) (hok : headerOk header = true)
    (vals : VMap) (st : MState) (hv : goodVals vals = true)
    (hnd : (keysOf vals).Nodup) (hst : st ≠ .done) :
    replaceLoop header st vals (appendedBlockSegs header vals) =
      ⟨appendedBlockSegs header vals, [], .done, false⟩ := by
  cases st with
  | done => exact absurd rfl hst
  | initial =>
    rw [appendedBlockSegs, replaceLoop, if_pos (contains_trim_self hok)]
    rw [replaceLoop_fl_ifline header vals hv hnd]
    rfl
  | foundLocale =>
    rw [appendedBlockSegs, replaceLoop]
    by_cases hhdr : trimS header = "if L then"
    · rw [if_pos hhdr]
      rw [replaceLoop, if_neg (show ¬ trimS "if L then" = "end" by decide)]
      have hpn : parseAssignment "if L then" = none := by decide
      simp only [hpn]
      rw [replaceLoop_tail_block header vals hv hnd]
      rfl
    · rw [if_neg hhdr]
      have hguard : (startsWithS (trimS header) "L =" &&
          trimS header ≠ header) = false := by
        rw [headerOk_trim hok]
        simp
      rw [hguard]
      simp only [Bool.false_eq_true, if_false]
      rw [replaceLoop_fl_ifline header vals hv hnd]
      rfl
  | insideIf =>
    rw [appendedBlockSegs, replaceLoop]
    rw [if_neg (by rw [headerOk_trim hok]; exact headerOk_ne_end hok)]
    simp only [headerOk_parse hok]
    rw [replaceLoop, if_neg (by decide)]
    have hpn : parseAssignment "if L then" = none := by decide
    simp only [hpn]
    rw [replaceLoop_tail_block header vals hv hnd]
    rfl

/-- Scanning a freshly synthesized blank-case block from `Initial` finds
the header on the `local` line, enters the `if`, consumes every value line
and finishes `Done` with nothing flushed. -/
theorem replaceLoop_caseA_scan (header : String) (hok : headerOk header = true)
    (vals : VMap) (hv : goodVals vals = true) (hnd : (keysOf vals).Nodup) :
    replaceLoop header .initial vals (caseASegs header vals) =
      ⟨caseASegs header vals, [], .done, false⟩ := by
  rw [caseASegs, replaceLoop, if_pos (contains_trim_local hok)]
  rw [replaceLoop, if_neg (by decide)]
  have hguard : (startsWithS (trimS "if not L then return end") "L =" &&
      trimS "if not L then return end" ≠ header) = false := by
    rw [show startsWithS (trimS "if not L then return end") "L =" = false
      from by decide, Bool.false_and]
  rw [hguard]
  simp only [Bool.false_eq_true, if_false]
  rw [replaceLoop_fl_ifline header vals hv hnd]
  rfl

/-- Scanning an empty line followed by the fallback block from any
non-`Done` state. -/
theorem replaceLoop_emptyline_block (header : String)
    (hok : headerOk header = true) (vals : VMap) (st : MState)
    (hv : goodVals vals = true) (hnd : (keysOf vals).Nodup)
    (hst : st ≠ .done) :
    replaceLoop header st vals (("", lineEnding) ::
        appendedBlockSegs header vals) =
      ⟨("", lineEnding) :: appendedBlockSegs header vals, [], .done, false⟩ := by
  cases st with
  | done => exact absurd rfl hst
  | initial =>
    rw [replaceLoop]
    rw [replaceLoop_block header hok vals _ hv hnd (by split <;> simp)]
    rfl
  | foundLocale =>
    rw [replaceLoop]
    have h1 : ¬ trimS "" = "if L then" := by decide
    have h2 : (startsWithS (trimS "") "L =" && trimS "" ≠ header) = false := by
      rw [show startsWithS (trimS "") "L =" = false from by decide,
        Bool.false_and]
    rw [if_neg h1, h2]
    simp only [Bool.false_eq_true, if_false]
    rw [replaceLoop_block header hok vals _ hv hnd (by simp)]
    rfl
  | insideIf =>
    rw [replaceLoop, if_neg (by decide)]
    have hpn : parseAssignment "" = none := rfl
    simp only [hpn]
    rw [replaceLoop_block header hok vals _ hv hnd (by simp)]
    rfl

/-- **C1, counterexample.** With a translation containing a raw quote the
rewritten line `\tL.a = "x"y"` re-parses with quoted value `x`, which again
differs from the translation, so a second merge rewrites again (growing the
line) and performs a write: merge is not idempotent for every values map. -/
theorem c1_counterexample :
    mergeSegs "L = H" [("a", ("x\"y", true))]
        (mergeSegs "L = H" [("a", ("x\"y", true))]
          [("L = H", "\n"), ("if L then", "\n"), ("\tL.a = \"old\"", "\n"),
            ("end", "\n")]) ≠
      mergeSegs "L = H" [("a", ("x\"y", true))]
        [("L = H", "\n"), ("if L then", "\n"), ("\tL.a = \"old\"", "\n"),
          ("end", "\n")] ∧
    replaceM "L = H" [("a", ("x\"y", true))]
        (mergeSegs "L = H" [("a", ("x\"y", true))]
          [("L = H", "\n"), ("if L then", "\n"), ("\tL.a = \"old\"", "\n"),
            ("end", "\n")]) ≠ .borrowed := by
  refine ⟨by decide, by decide⟩

/-- **C1, amended.** For every existing text, every header without
surrounding whitespace that is not itself an assignment line or the block
terminator, and every values map with word-character names, distinct keys
and translations free of raw quotes, backslashes and line breaks (the
shapes the pipeline produces): applying the merge a second time to the
first merge's result returns the borrowed text — the second application
computes no change and performs no file operation. -/
theorem c1_merge_idempotent (header : String) (vals : VMap) (segs : List Seg)
    (hok : headerOk header = true) (hv : goodVals vals = true)
    (hnd : (keysOf vals).Nodup) :
    replaceM header vals (mergeSegs header vals segs) = .borrowed ∧
    (∀ cf, writeToDirOps (some (mergeSegs header vals segs)) cf header vals
      = []) := by
  have hmain : replaceM header vals (mergeSegs header vals segs) = .borrowed := by
    cases hstate : (replaceLoop header .initial vals segs).state with
    | done =>
      by_cases hch : (replaceLoop header .initial vals segs).changed = true
      · have hrepl : replaceM header vals segs =
            .owned (replaceLoop header .initial vals segs).out := by
          simp only [replaceM, hstate, hch]
          simp
        have hmerge : mergeSegs header vals segs =
            (replaceLoop header .initial vals segs).out := by
          rw [mergeSegs, hrepl]
        obtain ⟨o1, o2, o3, o4⟩ := replaceLoop_rescan header segs .initial vals
          (replaceLoop header .initial vals segs).out hv hnd rfl
        rw [hmerge]
        simp only [replaceM]
        rw [o3 hstate, o2]
        simp
      · have hch' : (replaceLoop header .initial vals segs).changed = false := by
          revert hch
          cases (replaceLoop header .initial vals segs).changed <;> simp
        have hrepl : replaceM header vals segs = .borrowed := by
          simp only [replaceM, hstate, hch']
          simp
        have hmerge : mergeSegs header vals segs = segs := by
          rw [mergeSegs, hrepl]
        rw [hmerge, hrepl]
    | initial =>
      have hpre := replaceLoop_pre_id header segs .initial vals (Or.inl rfl)
        (Or.inl hstate)
      have hvals : (replaceLoop header .initial vals segs).vals = vals := by
        rw [hpre]
      have hout : (replaceLoop header .initial vals segs).out = segs := by
        rw [hpre]
      have hchg : (replaceLoop header .initial vals segs).changed = false := by
        rw [hpre]
      by_cases hblank : isBlank segs = true
      · have hrepl : replaceM header vals segs =
            .owned (caseASegs header vals) := by
          simp only [replaceM, hstate]
          rw [if_pos hblank, hvals]
        rw [mergeSegs, hrepl]
        simp only [replaceM]
        rw [replaceLoop_caseA_scan header hok vals hv hnd]
        simp
      · have hrepl : replaceM header vals segs =
            .owned (appendNL segs ++ appendedBlockSegs header vals) := by
          simp only [replaceM, hstate]
          rw [if_neg hblank, hout, hvals]
        rw [mergeSegs, hrepl]
        rcases appendNL_cases segs with hA | hA
        · obtain ⟨o1, o2, o3, o4⟩ := replaceLoop_rescan header segs .initial
            vals (appendNL segs) hv hnd (by rw [hA, hout])
          obtain ⟨ost, ovals⟩ := o4 (by rw [hstate]; simp)
          simp only [replaceM]
          rw [replaceLoop_append header (appendNL segs)
            (appendedBlockSegs header vals) .initial vals]
          rw [ost, hstate, ovals, hvals,
            replaceLoop_block header hok vals .initial hv hnd (by simp)]
          simp [seqOut, o2]
        · rw [hA, List.append_assoc]
          simp only [List.singleton_append]
          simp only [replaceM]
          rw [replaceLoop_append header segs
            (("", lineEnding) :: appendedBlockSegs header vals) .initial vals]
          rw [hstate, hvals,
            replaceLoop_emptyline_block header hok vals .initial hv hnd
              (by simp)]
          simp [seqOut, hchg]
    | foundLocale =>
      have hpre := replaceLoop_pre_id header segs .initial vals (Or.inl rfl)
        (Or.inr hstate)
      have hvals : (replaceLoop header .initial vals segs).vals = vals := by
        rw [hpre]
      have hout : (replaceLoop header .initial vals segs).out = segs := by
        rw [hpre]
      have hchg : (replaceLoop header .initial vals segs).changed = false := by
        rw [hpre]
      by_cases hblank : isBlank segs = true
      · have hrepl : replaceM header vals segs =
            .owned (caseASegs header vals) := by
          simp only [replaceM, hstate]
          rw [if_pos hblank, hvals]
        rw [mergeSegs, hrepl]
        simp only [replaceM]
        rw [replaceLoop_caseA_scan header hok vals hv hnd]
        simp
      · have hrepl : replaceM header vals segs =
            .owned (appendNL segs ++ appendedBlockSegs header vals) := by
          simp only [replaceM, hstate]
          rw [if_neg hblank, hout, hvals]
        rw [mergeSegs, hrepl]
        rcases appendNL_cases segs with hA | hA
        · obtain ⟨o1, o2, o3, o4⟩ := replaceLoop_rescan header segs .initial
            vals (appendNL segs) hv hnd (by rw [hA, hout])
          obtain ⟨ost, ovals⟩ := o4 (by rw [hstate]; simp)
          simp only [replaceM]
          rw [replaceLoop_append header (appendNL segs)
            (appendedBlockSegs header vals) .initial vals]
          rw [ost, hstate, ovals, hvals,
            replaceLoop_block header hok vals .foundLocale hv hnd (by simp)]
          simp [seqOut, o2]
        · rw [hA, List.append_assoc]
          simp only [List.singleton_append]
          simp only [replaceM]
          rw [replaceLoop_append header segs
            (("", lineEnding) :: appendedBlockSegs header vals) .initial vals]
          rw [hstate, hvals,
            replaceLoop_emptyline_block header hok vals .foundLocale hv hnd
              (by simp)]
          simp [seqOut, hchg]
    | insideIf =>
      have hnb : ¬ isBlank segs = true := by
        intro hb
        rcases replaceLoop_blank_state header segs .initial vals hb
          (Or.inl rfl) with h | h <;> rw [hstate] at h <;> simp at h
      have hgood' : goodVals (replaceLoop header .initial vals segs).vals =
          true :=
        goodVals_sublist (replaceLoop_vals_sublist header segs .initial vals) hv
      have hnd' : (keysOf (replaceLoop header .initial vals segs).vals).Nodup :=
        List.Nodup.sublist
          ((replaceLoop_vals_sublist header segs .initial vals).map Prod.fst)
          hnd
      have hrepl : replaceM header vals segs =
          .owned (appendNL (replaceLoop header .initial vals segs).out ++
            appendedBlockSegs header
              (replaceLoop header .initial vals segs).vals) := by
        simp only [replaceM, hstate]
        rw [if_neg hnb]
      rw [mergeSegs, hrepl]
      rcases appendNL_cases (replaceLoop header .initial vals segs).out
        with hA | hA
      · obtain ⟨o1, o2, o3, o4⟩ := replaceLoop_rescan header segs .initial
          vals (appendNL (replaceLoop header .initial vals segs).out) hv hnd
          (by rw [hA])
        obtain ⟨ost, ovals⟩ := o4 (by rw [hstate]; simp)
        simp only [replaceM]
        rw [replaceLoop_append header
          (appendNL (replaceLoop header .initial vals segs).out)
          (appendedBlockSegs header
            (replaceLoop header .initial vals segs).vals) .initial vals]
        rw [ost, hstate, ovals,
          replaceLoop_block header hok
            (replaceLoop header .initial vals segs).vals .insideIf hgood' hnd'
            (by simp)]
        simp [seqOut, o2]
      · obtain ⟨o1, o2, o3, o4⟩ := replaceLoop_rescan header segs .initial
          vals (replaceLoop header .initial vals segs).out hv hnd rfl
        obtain ⟨ost, ovals⟩ := o4 (by rw [hstate]; simp)
        rw [hA, List.append_assoc]
        simp only [List.singleton_append]
        simp only [replaceM]
        rw [replaceLoop_append header
          (replaceLoop header .initial vals segs).out
          (("", lineEnding) :: appendedBlockSegs header
            (replaceLoop header .initial vals segs).vals) .initial vals]
        rw [ost, hstate, ovals,
          replaceLoop_emptyline_block header hok
            (replaceLoop header .initial vals segs).vals .insideIf hgood' hnd'
            (by simp)]
        simp [seqOut, o2]
  refine ⟨hmain, fun cf => ?_⟩
  rw [writeToDirOps, hmain]

/-- Concrete instance of C1 (amended): a second merge over a merged file is
borrowed and issues no file operations. -/
theorem c1_merge_idempotent_witness :
    replaceM "L = H" [("a", ("new", true)), ("b", ("y", false))]
        (mergeSegs "L = H" [("a", ("new", true)), ("b", ("y", false))]
          [("x", "\n"), ("L = H", "\n"), ("if L then", "\n"),
            ("\tL.a = \"old\"", "\n"), ("end", "\n"), ("junk", "")]) =
      .borrowed ∧
    writeToDirOps (some (mergeSegs "L = H"
        [("a", ("new", true)), ("b", ("y", false))]
        [("x", "\n"), ("L = H", "\n"), ("if L then", "\n"),
          ("\tL.a = \"old\"", "\n"), ("end", "\n"), ("junk", "")])) true
      "L = H" [("a", ("new", true)), ("b", ("y", false))] = [] := by
  have h := c1_merge_idempotent "L = H"
    [("a", ("new", true)), ("b", ("y", false))]
    [("x", "\n"), ("L = H", "\n"), ("if L then", "\n"),
      ("\tL.a = \"old\"", "\n"), ("end", "\n"), ("junk", "")]
    (by decide) (by decide) (by decide)
  exact ⟨h.1, h.2 true⟩

/-! ## C5: the fallback block -/

/-- **C5, counterexample.** When the header is not found, the appended
block has no `local ` prefix and no `if not L then return end` guard line,
and when the existing content does not end with a line terminator no blank
line separates it from the block — the code merely appends one terminator.
The claim's Case-A-shaped output is not produced. -/
theorem c5_counterexample :
    (mergeSegs "L = H" [("a", ("T", true))] [("x", "")]).map Prod.fst =
      ["x", "L = H", "if L then", "\tL.a = \"T\"", "end"] ∧
    (mergeSegs "L = H" [("a", ("T", true))] [("x", "")]).map Prod.fst ≠
      ["x", "", "local L = H", "if not L then return end", "if L then",
        "\tL.a = \"T\"", "end"] := by
  refine ⟨by decide, by decide⟩

/-- **C5, amended.** When the scan never reaches `InsideIf`/`Done`: for
non-blank existing text the output is the existing text, one appended line
terminator (which yields a blank line only when the text already ended with
a terminator), then `<header>` / `if L then` / the value lines / `end` —
without the `local ` prefix and guard line; for blank existing text the
output is exactly the full Case-A block (`local <header>`, guard,
`if L then`, values, `end`). -/
theorem c5_fallback_append (header : String) (vals : VMap) (segs : List Seg)
    (hstate : (replaceLoop header .initial vals segs).state = .initial ∨
      (replaceLoop header .initial vals segs).state = .foundLocale) :
    (isBlank segs = false →
      mergeSegs header vals segs =
        appendNL segs ++ appendedBlockSegs header vals) ∧
    (isBlank segs = true →
      mergeSegs header vals segs = caseASegs header vals) := by
  have hpre := replaceLoop_pre_id header segs .initial vals (Or.inl rfl) hstate
  have hvals : (replaceLoop header .initial vals segs).vals = vals := by
    rw [hpre]
  have hout : (replaceLoop header .initial vals segs).out = segs := by
    rw [hpre]
  constructor
  · intro hnb
    rw [mergeSegs]
    simp only [replaceM]
    rcases hstate with h | h <;> simp only [h] <;>
      rw [if_neg (by rw [hnb]; simp), hout, hvals]
  · intro hb
    rw [mergeSegs]
    simp only [replaceM]
    rcases hstate with h | h <;> simp only [h] <;>
      rw [if_pos hb, hvals]

/-- Concrete instance of C5 (amended), one case each. -/
theorem c5_fallback_append_witness :
    mergeSegs "L = H" [("a", ("T", true))] [("x", "\n")] =
      appendNL [("x", "\n")] ++ appendedBlockSegs "L = H" [("a", ("T", true))] ∧
    mergeSegs "L = H" [("a", ("T", true))] [(" ", "\n")] =
      caseASegs "L = H" [("a", ("T", true))] := by
  constructor
  · exact (c5_fallback_append "L = H" [("a", ("T", true))] [("x", "\n")]
      (by decide)).1 (by decide)
  · exact (c5_fallback_append "L = H" [("a", ("T", true))] [(" ", "\n")]
      (by decide)).2 (by decide)

/-! ## C10: no duplicated assignment lines -/

/-- The name captured by the assignment pattern on a line, when it matches. -/
def assignNameOf (c : String) : Option String :=
  (parseAssignment c).map (fun caps => caps.name)

/-- Number of lines whose assignment pattern captures the name `n`. -/
def cntAssign (n : String) (fileLines : List String) : Nat :=
  (fileLines.filter (fun c => assignNameOf c = some n)).length

/-- The in-block part of the scan in isolation: processed lines and the
values left unconsumed. -/
def processBlock : VMap → List Seg → List Seg × VMap
  | vals, [] => ([], vals)
  | vals, (c, t) :: rest =>
    match parseAssignment c with
    | some caps =>
      match lookupA caps.name vals with
      | some (tr, ok) =>
        if ok && (caps.isComment || caps.value ≠ tr) then
          ((mkRewrittenLine caps.name tr caps.trailing, t) ::
              (processBlock (shiftRemoveA caps.name vals) rest).1,
            (processBlock (shiftRemoveA caps.name vals) rest).2)
        else
          ((c, t) :: (processBlock (shiftRemoveA caps.name vals) rest).1,
            (processBlock (shiftRemoveA caps.name vals) rest).2)
      | none =>
        ((c, t) :: (processBlock vals rest).1, (processBlock vals rest).2)
    | none =>
      ((c, t) :: (processBlock vals rest).1, (processBlock vals rest).2)

theorem lookupA_eq_none {α : Type} {k : String} :
    ∀ {m : List (String × α)}, lookupA k m = none → k ∉ m.map Prod.fst := by
  intro m
  induction m with
  | nil => intro _; simp
  | cons p rest ih =>
    intro h
    obtain ⟨k', v'⟩ := p
    rw [lookupA] at h
    by_cases hk : k' = k
    · rw [if_pos hk] at h
      exact absurd h (by simp)
    · rw [if_neg hk] at h
      simp only [List.map_cons, List.mem_cons]
      rintro (he | he)
      · exact hk he.symm
      · exact ih h he

theorem mem_keys_shiftRemove {α : Type} {n k : String} {m : List (String × α)}
    (h : n ∈ (shiftRemoveA k m).map Prod.fst) :
    n ∈ m.map Prod.fst ∧ n ≠ k := by
  obtain ⟨p, hp, hn⟩ := List.mem_map.mp h
  rw [shiftRemoveA, List.mem_filter] at hp
  obtain ⟨hpm, hpk⟩ := hp
  refine ⟨hn ▸ List.mem_map_of_mem Prod.fst hpm, ?_⟩
  rw [← hn]
  simpa using hpk

theorem processBlock_vals_sublist :
    ∀ (block : List Seg) (vals : VMap),
      List.Sublist (processBlock vals block).2 vals := by
  intro block
  induction block with
  | nil => intro vals; rw [processBlock]
  | cons s rest ih =>
    intro vals
    obtain ⟨c, t⟩ := s
    rw [processBlock]
    cases hp : parseAssignment c with
    | none =>
      simp only [hp]
      exact ih vals
    | some caps =>
      simp only [hp]
      cases hl : lookupA caps.name vals with
      | none =>
        simp only [hl]
        exact ih vals
      | some tv =>
        obtain ⟨tr, ok⟩ := tv
        simp only [hl]
        by_cases hcond : (ok && (caps.isComment || caps.value ≠ tr)) = true
        · rw [if_pos hcond]
          exact (ih _).trans (shiftRemoveA_sublist _ _)
        · rw [if_neg hcond]
          exact (ih _).trans (shiftRemoveA_sublist _ _)

/-- Inside the block (no `end` line before `e`), the loop is `processBlock`
followed by the insertion of the remaining values before `end`. -/
theorem replaceLoop_block_decomp (header : String) :
    ∀ (block : List Seg) (e : Seg) (rest : List Seg) (vals : VMap),
      (∀ s ∈ block, trimS s.1 ≠ "end") → trimS e.1 = "end" →
      (replaceLoop header .insideIf vals (block ++ e :: rest)).out =
        (processBlock vals block).1 ++
          valueSegs (processBlock vals block).2 ++ e :: rest ∧
      (replaceLoop header .insideIf vals (block ++ e :: rest)).vals =
        (processBlock vals block).2 := by
  intro block
  induction block with
  | nil =>
    intro e rest vals _ hend
    obtain ⟨ce, te⟩ := e
    rw [List.nil_append, replaceLoop, if_pos hend, processBlock]
    simp
  | cons s blk ih =>
    intro e rest vals hblock hend
    obtain ⟨c, t⟩ := s
    have hcend : trimS c ≠ "end" := hblock (c, t) (by simp)
    have hblk : ∀ s ∈ blk, trimS s.1 ≠ "end" :=
      fun s hs => hblock s (List.mem_cons_of_mem _ hs)
    rw [List.cons_append, replaceLoop, if_neg hcend, processBlock]
    cases hp : parseAssignment c with
    | none =>
      simp only [hp, consOut]
      obtain ⟨h1, h2⟩ := ih e rest vals hblk hend
      rw [h1, h2]
      simp [List.append_assoc]
    | some caps =>
      simp only [hp]
      cases hl : lookupA caps.name vals with
      | none =>
        simp only [hl, consOut]
        obtain ⟨h1, h2⟩ := ih e rest vals hblk hend
        rw [h1, h2]
        simp [List.append_assoc]
      | some tv =>
        obtain ⟨tr, ok⟩ := tv
        simp only [hl]
        by_cases hcond : (ok && (caps.isComment || caps.value ≠ tr)) = true
        · rw [if_pos hcond, if_pos hcond]
          simp only [setChanged, consOut]
          obtain ⟨h1, h2⟩ := ih e rest (shiftRemoveA caps.name vals) hblk hend
          rw [h1, h2]
          simp [List.append_assoc]
        · rw [if_neg hcond, if_neg hcond]
          simp only [consOut]
          obtain ⟨h1, h2⟩ := ih e rest (shiftRemoveA caps.name vals) hblk hend
          rw [h1, h2]
          simp [List.append_assoc]

theorem cntAssign_cons (n c : String) (fileLines : List String) :
    cntAssign n (c :: fileLines) =
      (if assignNameOf c = some n then 1 else 0) + cntAssign n fileLines := by
  rw [cntAssign, List.filter_cons]
  by_cases h : assignNameOf c = some n
  · simp [cntAssign, h, Nat.add_comm]
  · simp [cntAssign, h]

theorem cntAssign_append (n : String) (a b : List String) :
    cntAssign n (a ++ b) = cntAssign n a + cntAssign n b := by
  rw [cntAssign, List.filter_append, List.length_append]
  rfl

/-- Processing the block never changes which name a line's assignment
pattern captures: rewrites keep the name. -/
theorem processBlock_cnt (n : String) :
    ∀ (block : List Seg) (vals : VMap), goodVals vals = true →
      cntAssign n ((processBlock vals block).1.map Prod.fst) =
        cntAssign n (block.map Prod.fst) := by
  intro block
  induction block with
  | nil => intro vals _; rfl
  | cons s rest ih =>
    intro vals hv
    obtain ⟨c, t⟩ := s
    rw [processBlock]
    cases hp : parseAssignment c with
    | none =>
      simp only [hp, List.map_cons]
      rw [cntAssign_cons, cntAssign_cons, ih vals hv]
    | some caps =>
      simp only [hp]
      cases hl : lookupA caps.name vals with
      | none =>
        simp only [hl, List.map_cons]
        rw [cntAssign_cons, cntAssign_cons, ih vals hv]
      | some tv =>
        obtain ⟨tr, ok⟩ := tv
        simp only [hl]
        have hmem : (caps.name, (tr, ok)) ∈ vals := lookupA_mem hl
        obtain ⟨hgn, hgt⟩ := goodVals_mem hv hmem
        have hv' : goodVals (shiftRemoveA caps.name vals) = true :=
          goodVals_sublist (shiftRemoveA_sublist _ _) hv
        by_cases hcond : (ok && (caps.isComment || caps.value ≠ tr)) = true
        · rw [if_pos hcond]
          simp only [List.map_cons]
          rw [cntAssign_cons, cntAssign_cons, ih _ hv']
          have h1 : assignNameOf (mkRewrittenLine caps.name tr caps.trailing) =
              some caps.name := by
            rw [assignNameOf, parse_mkRewrittenLine caps.name tr caps.trailing
              hgn hgt (parseAssignment_trailing hp)]
            rfl
          have h2 : assignNameOf c = some caps.name := by
            rw [assignNameOf, hp]
            rfl
          rw [h1, h2]
        · rw [if_neg hcond]
          simp only [List.map_cons]
          rw [cntAssign_cons, cntAssign_cons, ih _ hv']

/-- A name still pending after the block was pending initially and occurs
on no line of the block. -/
theorem processBlock_unconsumed (n : String) :
    ∀ (block : List Seg) (vals : VMap),
      n ∈ keysOf (processBlock vals block).2 →
      n ∈ keysOf vals ∧ cntAssign n (block.map Prod.fst) = 0 := by
  intro block
  induction block with
  | nil =>
    intro vals h
    rw [processBlock] at h
    exact ⟨h, rfl⟩
  | cons s rest ih =>
    intro vals h
    obtain ⟨c, t⟩ := s
    rw [processBlock] at h
    cases hp : parseAssignment c with
    | none =>
      simp only [hp] at h
      obtain ⟨h1, h2⟩ := ih vals h
      refine ⟨h1, ?_⟩
      rw [List.map_cons, cntAssign_cons,
        if_neg (by rw [assignNameOf, hp]; simp), h2]
    | some caps =>
      simp only [hp] at h
      cases hl : lookupA caps.name vals with
      | none =>
        simp only [hl] at h
        obtain ⟨h1, h2⟩ := ih vals h
        have hne : caps.name ≠ n := by
          intro he
          exact lookupA_eq_none hl (he ▸ h1)
        refine ⟨h1, ?_⟩
        rw [List.map_cons, cntAssign_cons,
          if_neg (by rw [assignNameOf, hp]; simpa using hne), h2]
      | some tv =>
        obtain ⟨tr, ok⟩ := tv
        simp only [hl] at h
        have hsub : n ∈ keysOf (shiftRemoveA caps.name vals) ∧
            cntAssign n (rest.map Prod.fst) = 0 := by
          by_cases hcond : (ok && (caps.isComment || caps.value ≠ tr)) = true
          · rw [if_pos hcond] at h
            exact ih _ h
          · rw [if_neg hcond] at h
            exact ih _ h
        obtain ⟨h1, h2⟩ := hsub
        obtain ⟨h1', hne⟩ := mem_keys_shiftRemove h1
        refine ⟨h1', ?_⟩
        rw [List.map_cons, cntAssign_cons,
          if_neg (by rw [assignNameOf, hp]; simpa using fun he => hne he.symm),
          h2]

/-- The generated value lines carry each pending name exactly once. -/
theorem valueSegs_cnt (n : String) :
    ∀ (vals : VMap), goodVals vals = true → (keysOf vals).Nodup →
      cntAssign n ((valueSegs vals).map Prod.fst) =
        if n ∈ keysOf vals then 1 else 0 := by
  intro vals
  induction vals with
  | nil => intro _ _; simp [valueSegs, cntAssign, keysOf]
  | cons p rest ih =>
    intro hv hnd
    obtain ⟨k, t, ok⟩ := p
    rw [goodVals, List.all_cons] at hv
    simp only [Bool.and_eq_true] at hv
    obtain ⟨⟨hk, ht⟩, hv'⟩ := hv
    rw [← goodVals] at hv'
    rw [keysOf, List.map_cons, List.nodup_cons] at hnd
    obtain ⟨hknotin, hnd'⟩ := hnd
    rw [← keysOf] at hnd'
    have hline : assignNameOf (mkValueLine k t ok) = some k := by
      rw [assignNameOf, parse_mkValueLine k t ok hk ht]
      rfl
    have hmap : (valueSegs ((k, t, ok) :: rest)).map Prod.fst =
        mkValueLine k t ok :: (valueSegs rest).map Prod.fst := by
      simp [valueSegs]
    rw [hmap, cntAssign_cons, hline, ih hv' hnd']
    by_cases hkn : k = n
    · subst hkn
      rw [if_pos rfl, if_neg (by simpa [keysOf] using hknotin),
        if_pos (by simp [keysOf])]
    · rw [if_neg (by simpa using hkn)]
      have hmem : (n ∈ keysOf ((k, (t, ok)) :: rest)) ↔ n ∈ keysOf rest := by
        simp only [keysOf, List.map_cons]
        constructor
        · intro h
          rcases List.mem_cons.mp h with h | h
          · exact absurd h.symm hkn
          · exact h
        · intro h
          exact List.mem_cons.mpr (Or.inr h)
      simp only [hmem]
      simp

/-! ## C10: no duplicate assignment lines after a merge -/

theorem cntAssign_le_length (n : String) (fileLines : List String) :
    cntAssign n fileLines ≤ fileLines.length :=
  List.length_filter_le _ _

/-- **C10, counterexample.** The original claim has no restriction on the
names stored in the values map. A pending name containing non-word
characters, here "a.L.b", is never matched by the assignment pattern
(which captures word characters after "L."), so it survives the block and
is appended before the terminating "end". The appended line
"\tL.a.L.b = \"t\"" itself parses with captured name "b" (the regex finds
the later "L.b" occurrence), colliding with the block's existing
assignment of "b". The input block has at most one assignment line per
name, yet the merged output contains two lines whose captured name is
"b". -/
theorem c10_counterexample :
    (∀ n, cntAssign n (List.map Prod.fst
        [(("\tL.b = \"x\"" : String), ("\n" : String))]) ≤ 1) ∧
    cntAssign "b" ((replaceLoop "L = H" MState.insideIf
        [("a.L.b", ("t", true))]
        [("\tL.b = \"x\"", "\n"), ("end", "\n")]).out.map Prod.fst) = 2 := by
  constructor
  · intro n
    exact le_trans (cntAssign_le_length n _) (by decide)
  · decide

/-- **C10, amended.** For a values map whose names are word-character
names and whose translations contain no quote, newline or trailing
backslash (the shape the pipeline produces), with distinct keys (the
IndexMap invariant): if the matched block (the InsideIf lines before the
first "end") contains at most one assignment line capturing the name n,
then the merged replacement of the block region — the processed block
lines followed by the appended value lines — also contains at most one
line capturing n. In particular a name found inside the block is removed
from the pending set even when its line is left textually unchanged, and
is never appended again before "end". -/
theorem c10_no_duplicate_assignments (header n : String) (block : List Seg)
    (e : Seg) (rest : List Seg) (vals : VMap)
    (hv : goodVals vals = true) (hnd : (keysOf vals).Nodup)
    (hb : ∀ s ∈ block, trimS s.1 ≠ "end") (he : trimS e.1 = "end")
    (hcnt : cntAssign n (block.map Prod.fst) ≤ 1) :
    (replaceLoop header MState.insideIf vals (block ++ e :: rest)).out =
      (processBlock vals block).1 ++
        valueSegs (processBlock vals block).2 ++ e :: rest ∧
    cntAssign n (((processBlock vals block).1 ++
        valueSegs (processBlock vals block).2).map Prod.fst) ≤ 1 := by
  obtain ⟨hout, hvals⟩ := replaceLoop_block_decomp header block e rest vals hb he
  refine ⟨hout, ?_⟩
  have hsub := processBlock_vals_sublist block vals
  have hv2 : goodVals (processBlock vals block).2 = true := goodVals_sublist hsub hv
  have hnd2 : (keysOf (processBlock vals block).2).Nodup :=
    List.Nodup.sublist (hsub.map Prod.fst) hnd
  rw [List.map_append, cntAssign_append, processBlock_cnt n block vals hv,
    valueSegs_cnt n _ hv2 hnd2]
  by_cases hmem : n ∈ keysOf (processBlock vals block).2
  · obtain ⟨_, hz⟩ := processBlock_unconsumed n block vals hmem
    rw [if_pos hmem, hz]
  · rw [if_neg hmem]
    omega

/-- Concrete instance of C10 (amended): a block assigning "b" with a
pending value for "b"; the merge rewrites the line and appends nothing,
so "b" is captured by exactly one line of the output block region. -/
theorem c10_no_duplicate_assignments_witness :
    (replaceLoop "L = H" MState.insideIf [("b", ("y", true))]
        ([("\tL.b = \"x\"", "\n")] ++ ("end", "\n") :: [])).out =
      (processBlock [("b", ("y", true))] [("\tL.b = \"x\"", "\n")]).1 ++
        valueSegs (processBlock [("b", ("y", true))]
          [("\tL.b = \"x\"", "\n")]).2 ++ ("end", "\n") :: [] ∧
    cntAssign "b"
      (((processBlock [("b", ("y", true))] [("\tL.b = \"x\"", "\n")]).1 ++
        valueSegs (processBlock [("b", ("y", true))]
          [("\tL.b = \"x\"", "\n")]).2).map Prod.fst) ≤ 1 :=
  c10_no_duplicate_assignments "L = H" "b" [("\tL.b = \"x\"", "\n")]
    ("end", "\n") [] [("b", ("y", true))]
    (by decide) (by decide) (by decide) (by decide) (by decide)

end BwLoc
